import Mathlib

/-!
# source2gen: the field parser (tools/field_parser.h, tools/field_parser.cpp)

A shallow embedding of the type-descriptor parser and of the derived queries of
`field_info_t`, followed by theorems about them.

Conventions of the embedding:
* `std::string` is `List Char` (`Str`); `size_t` values are natural numbers and
  every `size_t` sum that can wrap is reduced modulo `2 ^ 64`;
* a C++ exception is the `Except.error` result of a function returning
  `Except Exception _`;
* loops are recursive functions over a fuel argument; the caller passes the
  length of the text, which bounds the number of iterations.
-/

namespace FieldParser

/-! ## Strings, sizes and exceptions -/

/-- The type std::string. -/
abbrev Str := List Char

/-- The exceptions the parser can raise: `std::runtime_error` (thrown by
`wrapped_atoi`) and `std::out_of_range` (thrown by `std::string::substr`). -/
inductive Exception where
  | runtime_error
  | out_of_range
deriving DecidableEq, Repr

/-- The number of values of `size_t`. -/
def SIZE_MOD : Nat := 2 ^ 64

/-- The constant `std::string::npos`: the largest `size_t`. -/
def npos : Nat := 2 ^ 64 - 1

/-- The method `std::string::contains(char)`. -/
def contains (s : Str) (c : Char) : Bool := decide (c ∈ s)

/-- The method `std::string::find(char)` (and `find_first_of(char)`): the index of the first
occurrence, `npos` when there is none. -/
def find (s : Str) (c : Char) : Nat := if c ∈ s then s.indexOf c else npos

/-- The method `std::string::substr(pos, n)`: throws `std::out_of_range` when `pos > size()`,
otherwise the characters `[pos, min(pos + n, size()))`. -/
def substr (s : Str) (pos : Nat) (n : Nat) : Except Exception Str :=
  if pos > s.length then .error .out_of_range else .ok ((s.drop pos).take n)

/-- The operator `s[pos]` of std::string for `pos ≤ size()`: `s[size()]` is the null character. -/
def char_at (s : Str) (pos : Nat) : Char := s.getD pos '\x00'

/-- The method `std::string::back()` (of a non-empty string). -/
def back (s : Str) : Char := s.getLastD '\x00'

/-- The function `std::isspace` in the "C" locale. -/
def isspace (c : Char) : Bool :=
  c = ' ' || c = '\t' || c = '\n' || c = '\x0b' || c = '\x0c' || c = '\r'

/-- The function `std::isdigit`. -/
def isdigit (c : Char) : Bool := decide (48 ≤ c.toNat ∧ c.toNat ≤ 57)

/-- The conversion of an `int` to `size_t`. -/
def to_size_t (v : Int) : Nat := (v % 2 ^ 64).toNat

/-- The largest `int`. -/
def INT_MAX : Int := 2 ^ 31 - 1

/-- The smallest `int`. -/
def INT_MIN : Int := -(2 ^ 31)

/-- The reduction of an integer into the range of `int` (two's complement). -/
def to_int (v : Int) : Int := (v + 2 ^ 31) % 2 ^ 32 - 2 ^ 31

/-! ## Collaborators outside the parser -/

/-- What the parser takes from outside field_parser.cpp:
* `guess_bitfield_type`: the function `codegen::guess_bitfield_type`, which names the integer
  type that holds a bitfield of the given width;
* `atoi_overflow`: the value the C library's `atoi` yields for a digit string whose value does
  not fit an `int` (the C standard leaves it undefined); it is reduced into the range of `int`
  by `atoi` below, so any library behaviour is covered. -/
structure Env where
  guess_bitfield_type : Int → Str
  atoi_overflow : Int → Int

/-! ## Data model (field_parser.h) -/

/-- Modelled from the spec: the enumeration `fieldtype_t`, which src only forward-declares
(`enum class fieldtype_t : uint8_t;`). Its enumerators here are the ones field_parser.cpp
names: the keys of `kDatamapToCpp` and `FIELD_UNUSED`, the sentinel that the spec gives as the
tag of a descriptor not parsed through the enum path (the header writes that default as
`static_cast<fieldtype_t>(24)`). `unlisted v` stands for every other value of the enumeration. -/
inductive fieldtype_t where
  | FIELD_FLOAT32 | FIELD_TIME | FIELD_ENGINE_TIME | FIELD_FLOAT64
  | FIELD_INT16 | FIELD_INT32 | FIELD_INT64
  | FIELD_UINT8 | FIELD_UINT16 | FIELD_UINT32 | FIELD_UINT64
  | FIELD_BOOLEAN | FIELD_CHARACTER | FIELD_VOID | FIELD_STRING
  | FIELD_VECTOR | FIELD_POSITION_VECTOR | FIELD_NETWORK_ORIGIN_CELL_QUANTIZED_VECTOR
  | FIELD_DIRECTION_VECTOR_WORLDSPACE | FIELD_NETWORK_QUANTIZED_VECTOR
  | FIELD_VECTOR2D | FIELD_VECTOR4D | FIELD_QANGLE | FIELD_QANGLE_WORLDSPACE
  | FIELD_QUATERNION | FIELD_CSTRING | FIELD_UTLSTRING | FIELD_UTLSTRINGTOKEN
  | FIELD_COLOR32 | FIELD_WORLD_GROUP_ID | FIELD_ROTATION_VECTOR
  | FIELD_CTRANSFORM_WORLDSPACE | FIELD_EHANDLE | FIELD_CUSTOM | FIELD_HMODEL
  | FIELD_HMATERIAL | FIELD_SHIM | FIELD_FUNCTION
  | FIELD_UNUSED
  | unlisted (v : Nat)
deriving DecidableEq, Repr

mutual
/-- The struct `field_info_t::template_info_t`. -/
inductive template_info_t where
  | mk (type_name : Str) (template_types : List template_type_t) (is_pointer : Bool)
/-- The type `std::variant<template_info_t, std::string>` of one template argument. -/
inductive template_type_t where
  | info (t : template_info_t)
  | str (s : Str)
end

namespace template_info_t

/-- Field `type_name`. -/
def type_name : template_info_t → Str
  | mk n _ _ => n

/-- Field `template_types`. -/
def template_types : template_info_t → List template_type_t
  | mk _ ts _ => ts

/-- Field `is_pointer`. -/
def is_pointer : template_info_t → Bool
  | mk _ _ p => p

/-- The value-initialised node `template_info_t{}`. -/
def empty : template_info_t := mk [] [] false

end template_info_t

mutual
/-- The method `template_info_t::to_string`. -/
def template_info_t.to_string : template_info_t → Str
  | .mk n ts p => n ++ ['<'] ++ types_to_string 0 ts ++ ['>'] ++ (if p then ['*'] else [])
/-- The loop of `to_string` over `template_types`, from index `i` on. -/
def types_to_string (i : Nat) : List template_type_t → Str
  | [] => []
  | t :: ts => (if i > 0 then [','] else []) ++ type_to_string t ++ types_to_string (i + 1) ts
/-- The body of the loop of `to_string`: one alternative of the variant. -/
def type_to_string : template_type_t → Str
  | .info t => t.to_string
  | .str s => s
end

/-- The class `field_info_t` with its default member initialisers. -/
structure field_info_t where
  m_type : Str := []
  m_field_type : fieldtype_t := fieldtype_t.FIELD_UNUSED
  m_name : Str := []
  m_array_sizes : List Nat := []
  m_template_info : template_info_t := template_info_t.empty
  m_bitfield_size : Nat := 0

namespace field_info_t

/-- The method `is_bitfield`. -/
def is_bitfield (f : field_info_t) : Bool := decide (f.m_bitfield_size ≠ 0)

/-- The method `is_array`. -/
def is_array (f : field_info_t) : Bool := !f.m_array_sizes.isEmpty

/-- The method `is_templated`. -/
def is_templated (f : field_info_t) : Bool := contains f.m_type '<' && contains f.m_type '>'

/-- The method `total_array_size`: the loop over `m_array_sizes` in `size_t` arithmetic. -/
def total_array_size (f : field_info_t) : Nat :=
  f.m_array_sizes.foldl (fun result size => if result = 0 then size else (result * size) % 2 ^ 64) 0

/-- The text `std::format("{}", n)` of a `size_t`: its decimal digits. -/
def format_size (n : Nat) : Str := Nat.toDigits 10 n

/-- The method `formatted_array_sizes`: the loop appending `std::format("[{}]", size)`. -/
def formatted_array_sizes (f : field_info_t) : Str :=
  f.m_array_sizes.foldl (fun result size => result ++ ('[' :: format_size size ++ [']'])) []

/-- The method `formatted_name`. -/
def formatted_name (f : field_info_t) : Str :=
  if f.is_bitfield then f.m_name ++ ": ".toList ++ format_size f.m_bitfield_size
  else if f.is_array then f.m_name ++ f.formatted_array_sizes
  else f.m_name

end field_info_t

/-! ## Static tables (field_parser.cpp) -/

/-- The constant `kBitfieldTypePrefix`. -/
def kBitfieldTypePrefix : Str := "bitfield:".toList

/-- The table `kTypeNameToCpp`. -/
def kTypeNameToCpp : List (Str × Str) :=
  [ ("float32".toList, "float".toList),
    ("float64".toList, "double".toList),
    ("int8".toList, "int8_t".toList),
    ("int16".toList, "int16_t".toList),
    ("int32".toList, "int32_t".toList),
    ("int64".toList, "int64_t".toList),
    ("uint8".toList, "uint8_t".toList),
    ("uint16".toList, "uint16_t".toList),
    ("uint32".toList, "uint32_t".toList),
    ("uint64".toList, "uint64_t".toList) ]

/-- The table `kDatamapToCpp`. -/
def kDatamapToCpp : List (fieldtype_t × Str) :=
  [ (fieldtype_t.FIELD_FLOAT32, "float".toList),
    (fieldtype_t.FIELD_TIME, "GameTime_t".toList),
    (fieldtype_t.FIELD_ENGINE_TIME, "float".toList),
    (fieldtype_t.FIELD_FLOAT64, "double".toList),
    (fieldtype_t.FIELD_INT16, "int16_t".toList),
    (fieldtype_t.FIELD_INT32, "int32_t".toList),
    (fieldtype_t.FIELD_INT64, "int64_t".toList),
    (fieldtype_t.FIELD_UINT8, "uint8_t".toList),
    (fieldtype_t.FIELD_UINT16, "uint16_t".toList),
    (fieldtype_t.FIELD_UINT32, "uint32_t".toList),
    (fieldtype_t.FIELD_UINT64, "uint64_t".toList),
    (fieldtype_t.FIELD_BOOLEAN, "bool".toList),
    (fieldtype_t.FIELD_CHARACTER, "char".toList),
    (fieldtype_t.FIELD_VOID, "void".toList),
    (fieldtype_t.FIELD_STRING, "CUtlSymbolLarge".toList),
    (fieldtype_t.FIELD_VECTOR, "Vector".toList),
    (fieldtype_t.FIELD_POSITION_VECTOR, "Vector".toList),
    (fieldtype_t.FIELD_NETWORK_ORIGIN_CELL_QUANTIZED_VECTOR, "Vector".toList),
    (fieldtype_t.FIELD_DIRECTION_VECTOR_WORLDSPACE, "Vector".toList),
    (fieldtype_t.FIELD_NETWORK_QUANTIZED_VECTOR, "Vector".toList),
    (fieldtype_t.FIELD_VECTOR2D, "Vector2D".toList),
    (fieldtype_t.FIELD_VECTOR4D, "Vector4D".toList),
    (fieldtype_t.FIELD_QANGLE, "QAngle".toList),
    (fieldtype_t.FIELD_QANGLE_WORLDSPACE, "QAngle".toList),
    (fieldtype_t.FIELD_QUATERNION, "Quaternion".toList),
    (fieldtype_t.FIELD_CSTRING, "const char*".toList),
    (fieldtype_t.FIELD_UTLSTRING, "CUtlString".toList),
    (fieldtype_t.FIELD_UTLSTRINGTOKEN, "CUtlStringToken".toList),
    (fieldtype_t.FIELD_COLOR32, "Color".toList),
    (fieldtype_t.FIELD_WORLD_GROUP_ID, "WorldGroupId_t".toList),
    (fieldtype_t.FIELD_ROTATION_VECTOR, "RotationVector".toList),
    (fieldtype_t.FIELD_CTRANSFORM_WORLDSPACE, "CTransform".toList),
    (fieldtype_t.FIELD_EHANDLE, "CHandle<CBaseEntity>".toList),
    (fieldtype_t.FIELD_CUSTOM, "void".toList),
    (fieldtype_t.FIELD_HMODEL, "CStrongHandle<InfoForResourceTypeCModel>".toList),
    (fieldtype_t.FIELD_HMATERIAL, "CStrongHandle<InfoForResourceTypeIMaterial2>".toList),
    (fieldtype_t.FIELD_SHIM, "SHIM".toList),
    (fieldtype_t.FIELD_FUNCTION, "void*".toList) ]

/-- The loop "applying kTypeNameToCpp rules": the first rule whose alias equals the string
replaces it by the rule's C++ name; a string that no rule matches is left as it is. -/
def apply_rules (type_string : Str) : Str :=
  match kTypeNameToCpp.find? (fun rule => decide (type_string = rule.1)) with
  | some rule => rule.2
  | none => type_string

/-! ## The bitfield detector -/

/-- The digit loop of `atoi`: the value of the leading decimal digits, after `acc`. -/
def atoi_digits : Str → Nat → Nat
  | [], acc => acc
  | c :: cs, acc => if isdigit c then atoi_digits cs (acc * 10 + (c.toNat - 48)) else acc

/-- The integer that `std::atoi` reads from a text: leading whitespace is skipped, an optional
sign is read, then the decimal digits that follow, up to the first other character. -/
def atoi_value (s : Str) : Int :=
  let s1 := s.dropWhile isspace
  if char_at s1 0 = '-' then -(atoi_digits (s1.drop 1) 0 : Int)
  else if char_at s1 0 = '+' then (atoi_digits (s1.drop 1) 0 : Int)
  else (atoi_digits s1 0 : Int)

/-- The C library function `std::atoi`: the integer read from the text when it fits an `int`,
and some `int` (the library's choice) when it does not. -/
def atoi (env : Env) (s : Str) : Int :=
  if INT_MIN ≤ atoi_value s ∧ atoi_value s ≤ INT_MAX then atoi_value s
  else to_int (env.atoi_overflow (atoi_value s))

/-- The function `detail::wrapped_atoi`. -/
def wrapped_atoi (env : Env) (s : Str) : Except Exception Int :=
  let result := atoi env s
  if result = 0 ∧ char_at s 0 ≠ '0' then .error .runtime_error else .ok result

/-- The function `detail::parse_bitfield`. -/
def parse_bitfield (env : Env) (result : field_info_t) (type_name : Str) :
    Except Exception field_info_t :=
  if type_name.length < kBitfieldTypePrefix.length then .ok result
  else do
    let s ← substr type_name 0 kBitfieldTypePrefix.length
    if s ≠ kBitfieldTypePrefix then .ok result
    else do
      let bitfield_size_str ←
        substr type_name kBitfieldTypePrefix.length (type_name.length - kBitfieldTypePrefix.length)
      let bitfield_size ← wrapped_atoi env bitfield_size_str
      .ok { result with
        m_bitfield_size := to_size_t bitfield_size
        m_type := env.guess_bitfield_type bitfield_size }

/-! ## The type normaliser and the template argument parser -/

/-- One iteration of the tokenizer loop of `parse_type` on the remaining text
`template_types`: `none` for `break`, otherwise the token pushed and the new remaining text. -/
def tokenize_step (template_types : Str) : Except Exception (Option (Str × Str)) :=
  if contains template_types '<' then do
    let pos := find template_types '>'
    let token ← substr template_types 0 pos
    let token := if char_at template_types ((pos + 1) % SIZE_MOD) = '*' then '*' :: token else token
    let rest ← substr template_types ((pos + 2) % SIZE_MOD) npos
    .ok (some (token, rest))
  else if contains template_types ',' then do
    let pos := find template_types ','
    let token ← substr template_types 0 pos
    let rest ← substr template_types ((pos + 1) % SIZE_MOD) npos
    .ok (some (token, rest))
  else if contains template_types '>' then do
    let pos := find template_types '>'
    let token ← substr template_types 0 pos
    let rest ← substr template_types ((pos + 1) % SIZE_MOD) npos
    .ok (some (token, rest))
  else .ok none

/-- The tokenizer loop `while (template_types.size() > 1)` of `parse_type`. -/
def tokenize_loop : Nat → Str → List Str → Except Exception (List Str)
  | 0, _, template_tokens => .ok template_tokens
  | fuel + 1, template_types, template_tokens =>
    if template_types.length > 1 then
      match tokenize_step template_types with
      | .error e => .error e
      | .ok none => .ok template_tokens
      | .ok (some (token, rest)) => tokenize_loop fuel rest (template_tokens ++ [token])
    else .ok template_tokens

/-- The loop `while (template_token.contains(','))` of `parse_type`: pushes the text before each
comma onto `types` and returns the list with the text left after the last comma. -/
def comma_loop : Nat → Str → List template_type_t →
    Except Exception (List template_type_t × Str)
  | 0, template_token, types => .ok (types, template_token)
  | fuel + 1, template_token, types =>
    if contains template_token ',' then do
      let item ← substr template_token 0 (find template_token ',')
      let rest ← substr template_token ((find template_token ',' + 1) % SIZE_MOD) npos
      comma_loop fuel rest (types ++ [template_type_t.str item])
    else .ok (types, template_token)

/-- The loop "go through all types and replace them with proper cpp types": every string
alternative is passed through the rules of `kTypeNameToCpp`. -/
def replace_types (types : List template_type_t) : List template_type_t :=
  types.map fun type =>
    match type with
    | .info t => .info t
    | .str type_string => .str (apply_rules type_string)

/-- The tail of the per-token loop body, on the node `template_info` points to: split the token
at its commas, push the pieces, and replace the aliases among the node's strings. -/
def push_types (template_info : template_info_t) (template_token : Str) :
    Except Exception template_info_t := do
  let (types, last) ← comma_loop template_token.length template_token template_info.template_types
  .ok (.mk template_info.type_name
    (replace_types (types ++ [template_type_t.str last])) template_info.is_pointer)

/-- The body of the loop `for (auto& template_token : template_tokens)` of `parse_type`, on the
root node `m_template_info`. -/
def process_token (root : template_info_t) (template_token : Str) :
    Except Exception template_info_t :=
  if contains template_token '<' then do
    -- a fresh node is pushed onto the root's arguments and filled in place
    let is_pointer := decide (char_at template_token 0 = '*')
    let template_token ← (if is_pointer then substr template_token 1 npos else .ok template_token)
    let type_name ← substr template_token 0 (find template_token '<')
    let template_token ← substr template_token ((find template_token '<' + 1) % SIZE_MOD) npos
    let node ← push_types (.mk type_name [] is_pointer) template_token
    .ok (.mk root.type_name (root.template_types ++ [template_type_t.info node]) root.is_pointer)
  else push_types root template_token

/-- The per-token loop of `parse_type`. -/
def process_tokens : List Str → template_info_t → Except Exception template_info_t
  | [], root => .ok root
  | template_token :: rest, root => do
    let root ← process_token root template_token
    process_tokens rest root

/-- The erase-remove statement of `parse_type`: every character for which `std::isspace` holds
is removed from the string. -/
def remove_spaces (s : Str) : Str := s.filter fun c => !isspace c

/-- The first statements of `detail::parse_type(field_info_t&, const std::string&)`: take
`type_name` when no type is set yet, erase the whitespace, apply the rules of `kTypeNameToCpp`
to the whole string. -/
def normalize_type (result : field_info_t) (type_name : Str) : field_info_t :=
  let result := if result.m_type.isEmpty then { result with m_type := type_name } else result
  let result := { result with m_type := remove_spaces result.m_type }
  { result with m_type := apply_rules result.m_type }

/-- The block `if (result.is_templated()) { ... }` of `parse_type`: fill `m_template_info`
from `m_type` and rebuild `m_type` from it. -/
def parse_template (result : field_info_t) : Except Exception field_info_t := do
  let type_name ← substr result.m_type 0 (find result.m_type '<')
  let is_pointer := decide (back result.m_type = '*')
  let template_types ← substr result.m_type ((find result.m_type '<' + 1) % SIZE_MOD) npos
  let template_tokens ← tokenize_loop template_types.length template_types []
  let root ← process_tokens template_tokens
    (.mk type_name result.m_template_info.template_types is_pointer)
  .ok { result with m_template_info := root, m_type := root.to_string }

/-- The function `detail::parse_type(field_info_t&, const std::string&)`. -/
def parse_type (result : field_info_t) (type_name : Str) : Except Exception field_info_t :=
  let result := normalize_type result type_name
  if result.is_templated then parse_template result else .ok result

/-- The function `detail::parse_type(field_info_t&, const fieldtype_t&)`. -/
def parse_type_datamap (result : field_info_t) (type_name : fieldtype_t) : field_info_t :=
  let result :=
    if result.m_field_type = fieldtype_t.FIELD_UNUSED then { result with m_field_type := type_name }
    else result
  match kDatamapToCpp.find? (fun rule => decide (result.m_field_type = rule.1)) with
  | some rule => { result with m_type := rule.2 }
  | none => result

/-! ## Entry points -/

/-- The string-path `field_parser::parse(type_name, name, array_sizes)`. -/
def parse (env : Env) (type_name name : Str) (array_sizes : List Nat) :
    Except Exception field_info_t := do
  let result : field_info_t := { m_name := name, m_array_sizes := array_sizes }
  let result ← parse_bitfield env result type_name
  parse_type result type_name

/-- The enum-path `field_parser::parse(type_name, name, array_sizes)`. -/
def parse_datamap (type_name : fieldtype_t) (name : Str) (array_sizes : Nat) : field_info_t :=
  let result : field_info_t := { m_name := name }
  let result :=
    if array_sizes > 1 then { result with m_array_sizes := result.m_array_sizes ++ [array_sizes] }
    else result
  parse_type_datamap result type_name

/-! ## Auxiliary definitions for the statements -/

/-- Collaborators for the closed instances: every bitfield is given the type `uint8_t`, and
`atoi` yields 0 for a value outside the range of `int`. -/
def sample_env : Env := ⟨fun _ => "uint8_t".toList, fun _ => 0⟩

/-- Setting the two members that `parse` copies from its arguments. -/
def with_name_sizes (d : field_info_t) (name : Str) (sizes : List Nat) : field_info_t :=
  { d with m_name := name, m_array_sizes := sizes }

/-- The computation `x` raises no exception other than `std::out_of_range`. -/
def raises_only_out_of_range {α : Type} (x : Except Exception α) : Prop :=
  ∀ e, x = .error e → e = .out_of_range

/-! ## Well-formed generic type strings -/

/-- A character of an identifier: a letter, a digit or the underscore. -/
def is_ident_char (c : Char) : Bool := c.isAlphanum || c = '_'

/-- A non-empty identifier. -/
def is_identifier (s : Str) : Prop := s ≠ [] ∧ ∀ c ∈ s, is_ident_char c = true

instance : DecidablePred is_identifier := fun s => by
  unfold is_identifier; infer_instance

/-- The texts `xs` joined by commas. -/
def commas : List Str → Str
  | [] => []
  | [x] => x
  | x :: y :: rest => x ++ ',' :: commas (y :: rest)

/-- A run of top-level identifiers followed by a nested instantiation:
the items `x1,...,xk,B<y1,...,ym>` of an argument list. -/
structure Group where
  leaves : List Str
  name : Str
  args : List Str

namespace Group

/-- The text of the group without its closing bracket: `x1,...,xk,B<y1,...,ym`. -/
def token (g : Group) : Str := commas (g.leaves ++ [g.name ++ '<' :: commas g.args])

/-- The text of the group: `x1,...,xk,B<y1,...,ym>`. -/
def text (g : Group) : Str := g.token ++ ['>']

/-- Every name of the group is a non-empty identifier and the nested instantiation has at
least one argument. -/
def wf (g : Group) : Prop :=
  (∀ x ∈ g.leaves, is_identifier x) ∧ is_identifier g.name ∧ g.args ≠ [] ∧
    ∀ y ∈ g.args, is_identifier y

/-- The group with the aliases among the arguments of its nested instantiation replaced. -/
def normalize (g : Group) : Group := { g with args := g.args.map apply_rules }

/-- The template argument that the parser builds from the group: one nested node, named by
the whole text before the bracket. -/
def node (g : Group) : template_type_t :=
  .info (.mk (commas (g.leaves ++ [g.name]))
    (g.args.map fun y => template_type_t.str (apply_rules y)) false)

end Group

/-- The text between the brackets of a generic type string: the groups, then the identifiers
that follow the last nested instantiation, all joined by commas. -/
def args_text (gs : List Group) (trailing : List Str) : Str :=
  commas (gs.map Group.text ++ trailing)

/-- The generic type string `A<items>` or `A<items>*`. -/
def generic_text (A : Str) (gs : List Group) (trailing : List Str) (p : Bool) : Str :=
  A ++ '<' :: (args_text gs trailing ++ '>' :: (if p then ['*'] else []))

/-- The template node that the parser builds from `generic_text A gs trailing p`. -/
def generic_node (A : Str) (gs : List Group) (trailing : List Str) (p : Bool) : template_info_t :=
  .mk A (gs.map Group.node ++ trailing.map fun x => template_type_t.str (apply_rules x)) p

/-- One top-level item of a well-formed argument list: an identifier `x`, or a one-level nested
instantiation `B<y1,...,ym>` without pointer marker. -/
inductive Item where
  | leaf (x : Str)
  | nested (name : Str) (args : List Str)

namespace Item

/-- The text of the item. -/
def text : Item → Str
  | leaf x => x
  | nested b ys => b ++ '<' :: (commas ys ++ ['>'])

/-- Every name of the item is a non-empty identifier and a nested instantiation has at least
one argument. -/
def wf : Item → Prop
  | leaf x => is_identifier x
  | nested b ys => is_identifier b ∧ ys ≠ [] ∧ ∀ y ∈ ys, is_identifier y

end Item

/-- The well-formed generic type string `A<item,...,item>`, followed by `*` when `p` holds. -/
def type_text (A : Str) (items : List Item) (p : Bool) : Str :=
  A ++ '<' :: (commas (items.map Item.text) ++ '>' :: (if p then ['*'] else []))

/-- The items of an argument list split into groups, each a run of identifiers closed by a
nested instantiation, and the identifiers after the last nested instantiation. -/
def group_items : List Item → List Group × List Str
  | [] => ([], [])
  | .leaf x :: rest =>
    match group_items rest with
    | ([], tr) => ([], x :: tr)
    | (g :: gs, tr) => ({ g with leaves := x :: g.leaves } :: gs, tr)
  | .nested b ys :: rest => (⟨[], b, ys⟩ :: (group_items rest).1, (group_items rest).2)

/-- None of the characters that the parser gives a meaning occurs in the text. -/
def plain (s : Str) : Prop :=
  '<' ∉ s ∧ '>' ∉ s ∧ ',' ∉ s ∧ '*' ∉ s ∧ ':' ∉ s ∧ ∀ c ∈ s, isspace c = false

/-- The characters of a well-formed generic type string. -/
def type_char (c : Char) : Prop :=
  is_ident_char c = true ∨ c = '<' ∨ c = '>' ∨ c = ',' ∨ c = '*'

/-- The declarator suffix in the words of the spec: ": " and the width for a bitfield;
otherwise "[d]" for each array dimension d, outermost first; otherwise nothing. -/
def declarator_suffix (f : field_info_t) : Str :=
  if f.m_bitfield_size ≠ 0 then ": ".toList ++ Nat.toDigits 10 f.m_bitfield_size
  else if f.m_array_sizes ≠ [] then
    (f.m_array_sizes.map fun d => "[".toList ++ Nat.toDigits 10 d ++ "]".toList).flatten
  else []

/-! ## Shapes of template trees -/

/-- The variant holds a string. -/
def template_type_t.is_leaf : template_type_t → Bool
  | .str _ => true
  | .info _ => false

/-- A leaf argument as the parser stores it: the image under the rules of `kTypeNameToCpp` of a
text whose characters all satisfy `Q`. -/
def normal_leaf (Q : Char → Prop) (t : template_type_t) : Prop :=
  ∃ x : Str, t = .str (apply_rules x) ∧ ∀ c ∈ x, Q c

/-- An argument of the root node as the parser stores it: a leaf, or a nested node with at
least one argument, all of its arguments leaves. -/
def normal_arg (Q : Char → Prop) (t : template_type_t) : Prop :=
  normal_leaf Q t ∨
    ∃ (n : Str) (ys : List template_type_t) (p : Bool), t = .info (.mk n ys p) ∧ ys ≠ [] ∧
      (∀ c ∈ n, Q c) ∧ ∀ y ∈ ys, normal_leaf Q y

/-- Every argument of the root node is a leaf, or a nested node all of whose arguments are
leaves: the tree has no third level. -/
def template_info_t.one_level (root : template_info_t) : Bool :=
  root.template_types.all fun a =>
    match a with
    | .str _ => true
    | .info n => n.template_types.all template_type_t.is_leaf

mutual
/-- The leaf strings stored anywhere in the tree, from left to right. -/
def template_info_t.leaves : template_info_t → List Str
  | .mk _ ts _ => types_leaves ts
/-- The leaf strings stored in a list of arguments and below. -/
def types_leaves : List template_type_t → List Str
  | [] => []
  | t :: ts => type_leaves t ++ types_leaves ts
/-- The leaf strings stored in one argument and below. -/
def type_leaves : template_type_t → List Str
  | .info t => t.leaves
  | .str s => [s]
end

mutual
/-- The nested nodes stored anywhere below the root of the tree. -/
def template_info_t.nodes : template_info_t → List template_info_t
  | .mk _ ts _ => types_nodes ts
/-- The nested nodes stored in a list of arguments and below. -/
def types_nodes : List template_type_t → List template_info_t
  | [] => []
  | t :: ts => type_nodes t ++ types_nodes ts
/-- The nested nodes stored in one argument and below. -/
def type_nodes : template_type_t → List template_info_t
  | .info t => t :: t.nodes
  | .str _ => []
end

/-! ## Lemmas and theorems -/

/-! ### The result does not depend on the name and the array sizes -/

theorem parse_bitfield_with (env : Env) (r : field_info_t) (t name : Str) (ds : List Nat) :
    parse_bitfield env (with_name_sizes r name ds) t =
      (parse_bitfield env r t).map (fun d => with_name_sizes d name ds) := by
  unfold parse_bitfield
  split
  · rfl
  · cases substr t 0 kBitfieldTypePrefix.length with
    | error e => rfl
    | ok s =>
      simp only [bind, Except.bind]
      split
      · rfl
      · cases substr t kBitfieldTypePrefix.length (t.length - kBitfieldTypePrefix.length) with
        | error e => rfl
        | ok s2 =>
          simp only []
          cases wrapped_atoi env s2 with
          | error e => rfl
          | ok v => rfl

theorem normalize_type_with (r : field_info_t) (t name : Str) (ds : List Nat) :
    normalize_type (with_name_sizes r name ds) t = with_name_sizes (normalize_type r t) name ds := by
  unfold normalize_type with_name_sizes
  by_cases h : r.m_type.isEmpty = true <;> simp [h]

theorem parse_template_with (r : field_info_t) (name : Str) (ds : List Nat) :
    parse_template (with_name_sizes r name ds) =
      (parse_template r).map (fun d => with_name_sizes d name ds) := by
  unfold parse_template
  simp only [with_name_sizes, bind, Except.bind]
  cases substr r.m_type 0 (find r.m_type '<') with
  | error e => rfl
  | ok base =>
    cases substr r.m_type ((find r.m_type '<' + 1) % SIZE_MOD) npos with
    | error e => rfl
    | ok tt =>
      simp only []
      cases tokenize_loop tt.length tt [] with
      | error e => rfl
      | ok toks =>
        simp only []
        cases process_tokens toks (.mk base r.m_template_info.template_types
            (decide (back r.m_type = '*'))) with
        | error e => rfl
        | ok root => rfl

theorem parse_type_with (r : field_info_t) (t name : Str) (ds : List Nat) :
    parse_type (with_name_sizes r name ds) t =
      (parse_type r t).map (fun d => with_name_sizes d name ds) := by
  unfold parse_type
  simp only [normalize_type_with]
  have : (with_name_sizes (normalize_type r t) name ds).is_templated
      = (normalize_type r t).is_templated := rfl
  rw [this]
  split
  · exact parse_template_with _ _ _
  · rfl

theorem parse_with (env : Env) (t name : Str) (ds : List Nat) :
    parse env t name ds = (parse env t [] []).map (fun d => with_name_sizes d name ds) := by
  unfold parse
  have h := parse_bitfield_with env {} t name ds
  simp only [with_name_sizes] at h
  simp only [bind, Except.bind]
  rw [h]
  cases parse_bitfield env {} t with
  | error e => rfl
  | ok r => exact parse_type_with r t name ds

/-! ### Decimal digits and `atoi` -/

theorem digitChar_spec (k : Nat) (hk : k < 10) :
    isdigit (Nat.digitChar k) = true ∧ (Nat.digitChar k).toNat - 48 = k := by
  have h : ∀ j : Fin 10, isdigit (Nat.digitChar j.val) = true ∧
      (Nat.digitChar j.val).toNat - 48 = j.val := by decide
  exact h ⟨k, hk⟩

theorem atoi_digits_append (pre rest : Str) (acc : Nat) (h : ∀ c ∈ pre, isdigit c = true) :
    atoi_digits (pre ++ rest) acc =
      atoi_digits rest (pre.foldl (fun a c => a * 10 + (c.toNat - 48)) acc) := by
  induction pre generalizing acc with
  | nil => rfl
  | cons c cs ih =>
    have hc : isdigit c = true := h c (List.mem_cons_self _ _)
    simp only [List.cons_append, atoi_digits, hc, if_true, List.foldl_cons]
    exact ih _ (fun x hx => h x (List.mem_cons_of_mem _ hx))

theorem toDigitsCore_spec (fuel : Nat) : ∀ (n : Nat) (ds : Str), n < fuel →
    ∃ pre : Str, Nat.toDigitsCore 10 fuel n ds = pre ++ ds ∧ pre ≠ [] ∧
      (∀ c ∈ pre, isdigit c = true) ∧
      pre.foldl (fun a c => a * 10 + (c.toNat - 48)) 0 = n := by
  induction fuel with
  | zero => intro n ds h; omega
  | succ fuel ih =>
    intro n ds hn
    have hd := digitChar_spec (n % 10) (Nat.mod_lt _ (by decide))
    simp only [Nat.toDigitsCore]
    by_cases h0 : n / 10 = 0
    · simp only [h0, if_true]
      refine ⟨[Nat.digitChar (n % 10)], rfl, by simp, ?_, ?_⟩
      · intro c hc
        simp only [List.mem_singleton] at hc
        rw [hc]; exact hd.1
      · simp only [List.foldl_cons, List.foldl_nil, hd.2]
        omega
    · simp only [h0, if_false]
      obtain ⟨pre, hpre, -, hdig, hval⟩ := ih (n / 10) (Nat.digitChar (n % 10) :: ds) (by omega)
      refine ⟨pre ++ [Nat.digitChar (n % 10)], ?_, by simp, ?_, ?_⟩
      · rw [hpre]; simp
      · intro c hc
        rcases List.mem_append.1 hc with hc | hc
        · exact hdig c hc
        · simp only [List.mem_singleton] at hc
          rw [hc]; exact hd.1
      · simp only [List.foldl_append, List.foldl_cons, List.foldl_nil, hval, hd.2]
        omega

theorem toDigits_spec (n : Nat) :
    ∃ (c : Char) (cs : Str), Nat.toDigits 10 n = c :: cs ∧ isdigit c = true ∧
      atoi_digits (c :: cs) 0 = n := by
  obtain ⟨pre, hpre, hne, hdig, hval⟩ := toDigitsCore_spec (n + 1) n [] (by omega)
  have hval2 : atoi_digits (Nat.toDigits 10 n) 0 = n := by
    unfold Nat.toDigits
    rw [hpre, atoi_digits_append pre [] 0 hdig, hval]
    rfl
  cases pre with
  | nil => exact absurd rfl hne
  | cons c cs =>
    have hp : Nat.toDigits 10 n = c :: cs := by
      unfold Nat.toDigits; rw [hpre]; simp
    exact ⟨c, cs, hp, hdig c (List.mem_cons_self _ _), hp ▸ hval2⟩

/-! ### Strings -/

theorem contains_eq_true {s : Str} {c : Char} : contains s c = true ↔ c ∈ s := by
  simp [contains]

theorem contains_eq_false {s : Str} {c : Char} : contains s c = false ↔ c ∉ s := by
  simp [contains]

theorem find_not_mem {s : Str} {c : Char} (h : c ∉ s) : find s c = npos := by
  simp [find, h]

theorem find_append_cons (xs ys : Str) (c : Char) (h : c ∉ xs) :
    find (xs ++ c :: ys) c = xs.length := by
  have hmem : c ∈ xs ++ c :: ys := by simp
  simp only [find, hmem, if_true]
  induction xs with
  | nil => simp
  | cons x xs ih =>
    have hx : x ≠ c := fun e => h (e ▸ List.mem_cons_self _ _)
    have hxs : c ∉ xs := fun e => h (List.mem_cons_of_mem _ e)
    simp only [List.cons_append, List.length_cons]
    rw [List.indexOf_cons_ne _ hx, ih hxs (by simp)]

theorem find_lt_length {s : Str} {c : Char} (h : c ∈ s) : find s c < s.length := by
  simp only [find, h, if_true]
  exact List.indexOf_lt_length.2 h

theorem substr_ok (s : Str) (pos n : Nat) (h : pos ≤ s.length) :
    substr s pos n = .ok ((s.drop pos).take n) := by
  simp [substr, Nat.not_lt.2 h]

theorem substr_npos (s : Str) (pos : Nat) (h : pos ≤ s.length) (hl : s.length ≤ npos) :
    substr s pos npos = .ok (s.drop pos) := by
  rw [substr_ok s pos npos h, List.take_of_length_le]
  simp only [List.length_drop]; omega

theorem substr_error {s : Str} {pos n : Nat} {e : Exception} (h : substr s pos n = .error e) :
    e = .out_of_range := by
  unfold substr at h
  split at h
  · injection h with h; exact h.symm
  · injection h

/-! ### The rules of `kTypeNameToCpp` -/

theorem rules_no_lt : ∀ rule ∈ kTypeNameToCpp, '<' ∉ rule.1 ∧ '<' ∉ rule.2 := by decide

theorem apply_rules_of_lt {s : Str} (h : '<' ∈ s) : apply_rules s = s := by
  unfold apply_rules
  split
  · rename_i rule heq
    have hmem := List.mem_of_find?_eq_some heq
    have hkey : s = rule.1 := by simpa using List.find?_some heq
    exact absurd (hkey ▸ h) (rules_no_lt rule hmem).1
  · rfl

theorem apply_rules_no_lt {s : Str} (h : '<' ∉ s) : '<' ∉ apply_rules s := by
  unfold apply_rules
  split
  · rename_i rule heq
    exact (rules_no_lt rule (List.mem_of_find?_eq_some heq)).2
  · exact h

/-! ### The bitfield detector -/

theorem parse_bitfield_not_bitfield (env : Env) (r : field_info_t) (t : Str)
    (h : ¬ kBitfieldTypePrefix <+: t) : parse_bitfield env r t = .ok r := by
  unfold parse_bitfield
  split
  · rfl
  · rw [substr_ok t 0 _ (Nat.zero_le _)]
    simp only [bind, Except.bind, List.drop_zero]
    split
    · rfl
    · rename_i heq
      simp only [ne_eq, not_not] at heq
      exact absurd (heq ▸ List.take_prefix _ t) h

theorem parse_bitfield_bitfield (env : Env) (r : field_info_t) (rest : Str) :
    parse_bitfield env r (kBitfieldTypePrefix ++ rest) =
      match wrapped_atoi env rest with
      | .error e => .error e
      | .ok v => .ok { r with
          m_bitfield_size := to_size_t v
          m_type := env.guess_bitfield_type v } := by
  unfold parse_bitfield
  have h1 : ¬ (kBitfieldTypePrefix ++ rest).length < kBitfieldTypePrefix.length := by simp
  simp only [h1, if_false]
  rw [substr_ok _ 0 _ (Nat.zero_le _), substr_ok _ _ _ (by simp)]
  simp only [bind, Except.bind, List.drop_zero, List.take_left', List.drop_left', ne_eq,
    not_true_eq_false, if_false, List.length_append, Nat.add_sub_cancel_left, List.take_length]
  cases wrapped_atoi env rest <;> rfl

/-! ### Non-templated types -/

theorem normalize_type_type (r : field_info_t) (t : Str) :
    (normalize_type r t).m_type = apply_rules (remove_spaces (if r.m_type.isEmpty then t else r.m_type)) := by
  unfold normalize_type remove_spaces
  by_cases h : r.m_type.isEmpty = true <;> simp [h]

theorem parse_type_not_templated (r : field_info_t) (t : Str)
    (h : '<' ∉ (if r.m_type.isEmpty then t else r.m_type)) :
    parse_type r t = .ok (normalize_type r t) := by
  unfold parse_type
  have h2 : (normalize_type r t).is_templated = false := by
    unfold field_info_t.is_templated
    rw [Bool.and_eq_false_iff]
    left
    rw [contains_eq_false, normalize_type_type]
    apply apply_rules_no_lt
    intro hm
    exact h (List.mem_filter.1 hm).1
  simp [h2]

/-! ### Which exception the template parser raises -/

theorem oor_ok {α : Type} (a : α) : raises_only_out_of_range (Except.ok a : Except Exception α) := by
  intro e h; injection h

theorem oor_substr (s : Str) (pos n : Nat) : raises_only_out_of_range (substr s pos n) :=
  fun _ h => substr_error h

theorem oor_bind {α β : Type} {x : Except Exception α} {f : α → Except Exception β}
    (hx : raises_only_out_of_range x) (hf : ∀ a, raises_only_out_of_range (f a)) :
    raises_only_out_of_range (x >>= f) := by
  intro e h
  cases x with
  | error e0 =>
    have : e0 = e := by
      simp only [bind, Except.bind] at h
      injection h
    exact this ▸ hx e0 rfl
  | ok a => exact hf a e h

theorem oor_tokenize_step (t : Str) : raises_only_out_of_range (tokenize_step t) := by
  unfold tokenize_step
  split
  · exact oor_bind (oor_substr _ _ _) fun _ => oor_bind (oor_substr _ _ _) fun _ => oor_ok _
  · split
    · exact oor_bind (oor_substr _ _ _) fun _ => oor_bind (oor_substr _ _ _) fun _ => oor_ok _
    · split
      · exact oor_bind (oor_substr _ _ _) fun _ => oor_bind (oor_substr _ _ _) fun _ => oor_ok _
      · exact oor_ok _

theorem oor_tokenize_loop (fuel : Nat) : ∀ (t : Str) (acc : List Str),
    raises_only_out_of_range (tokenize_loop fuel t acc) := by
  induction fuel with
  | zero => intro t acc; exact oor_ok _
  | succ fuel ih =>
    intro t acc
    unfold tokenize_loop
    split
    · have hs := oor_tokenize_step t
      split
      · rename_i e heq
        intro e2 h2
        injection h2 with h2
        exact h2 ▸ hs e heq
      · exact oor_ok _
      · exact ih _ _
    · exact oor_ok _

theorem oor_comma_loop (fuel : Nat) : ∀ (t : Str) (types : List template_type_t),
    raises_only_out_of_range (comma_loop fuel t types) := by
  induction fuel with
  | zero => intro t types; exact oor_ok _
  | succ fuel ih =>
    intro t types
    unfold comma_loop
    split
    · exact oor_bind (oor_substr _ _ _) fun _ => oor_bind (oor_substr _ _ _) fun _ => ih _ _
    · exact oor_ok _

theorem oor_push_types (info : template_info_t) (tok : Str) :
    raises_only_out_of_range (push_types info tok) := by
  unfold push_types
  exact oor_bind (oor_comma_loop _ _ _) fun _ => oor_ok _

theorem oor_process_token (root : template_info_t) (tok : Str) :
    raises_only_out_of_range (process_token root tok) := by
  unfold process_token
  split
  · refine oor_bind ?_ fun _ => oor_bind (oor_substr _ _ _) fun _ =>
      oor_bind (oor_substr _ _ _) fun _ => oor_bind (oor_push_types _ _) fun _ => oor_ok _
    split
    · exact oor_substr _ _ _
    · exact oor_ok _
  · exact oor_push_types _ _

theorem oor_process_tokens (toks : List Str) : ∀ root : template_info_t,
    raises_only_out_of_range (process_tokens toks root) := by
  induction toks with
  | nil => intro root; exact oor_ok _
  | cons tok toks ih =>
    intro root
    unfold process_tokens
    exact oor_bind (oor_process_token _ _) fun _ => ih _

theorem oor_parse_template (r : field_info_t) : raises_only_out_of_range (parse_template r) := by
  unfold parse_template
  exact oor_bind (oor_substr _ _ _) fun _ => oor_bind (oor_substr _ _ _) fun _ =>
    oor_bind (oor_tokenize_loop _ _ _) fun _ => oor_bind (oor_process_tokens _ _) fun _ => oor_ok _

theorem oor_parse_type (r : field_info_t) (t : Str) : raises_only_out_of_range (parse_type r t) := by
  unfold parse_type
  simp only []
  split
  · exact oor_parse_template _
  · exact oor_ok _

/-! ### Members that `parse_type` leaves alone -/

theorem parse_template_bitfield_size (r d : field_info_t) (h : parse_template r = .ok d) :
    d.m_bitfield_size = r.m_bitfield_size := by
  unfold parse_template at h
  simp only [bind, Except.bind] at h
  repeat' split at h
  all_goals first
    | (injection h with h; rw [← h])
    | injection h

theorem parse_type_bitfield_size (r d : field_info_t) (t : Str) (h : parse_type r t = .ok d) :
    d.m_bitfield_size = r.m_bitfield_size := by
  unfold parse_type at h
  simp only [] at h
  split at h
  · rw [parse_template_bitfield_size _ _ h]
    unfold normalize_type
    by_cases h1 : r.m_type.isEmpty = true <;> simp [h1]
  · injection h with h
    rw [← h]
    unfold normalize_type
    by_cases h1 : r.m_type.isEmpty = true <;> simp [h1]

/-! ### `wrapped_atoi` -/

theorem isdigit_ne {c : Char} (h : isdigit c = true) :
    isspace c = false ∧ c ≠ '-' ∧ c ≠ '+' ∧ c ≠ '<' := by
  refine ⟨?_, ?_, ?_, ?_⟩
  · cases hs : isspace c with
    | false => rfl
    | true =>
      simp only [isspace, Bool.or_eq_true, decide_eq_true_eq] at hs
      rcases hs with ((((hs | hs) | hs) | hs) | hs) | hs <;> (subst hs; exact absurd h (by decide))
  all_goals (rintro rfl; exact absurd h (by decide))

theorem atoi_value_toDigits (n : Nat) : atoi_value (Nat.toDigits 10 n) = (n : Int) := by
  obtain ⟨c, cs, hp, hc, hv⟩ := toDigits_spec n
  obtain ⟨hsp, hminus, hplus, -⟩ := isdigit_ne hc
  unfold atoi_value
  rw [hp]
  have hdrop : List.dropWhile isspace (c :: cs) = c :: cs := by
    simp [List.dropWhile, hsp]
  have hat : char_at (c :: cs) 0 = c := rfl
  simp only [hdrop, hat, hminus, hplus, if_false, hv]

theorem atoi_in_range (env : Env) (s : Str)
    (h : INT_MIN ≤ atoi_value s ∧ atoi_value s ≤ INT_MAX) : atoi env s = atoi_value s := by
  unfold atoi
  rw [if_pos h]

theorem atoi_toDigits (env : Env) (n : Nat) (hmax : n ≤ 2147483647) :
    atoi env (Nat.toDigits 10 n) = (n : Int) := by
  rw [atoi_in_range, atoi_value_toDigits]
  rw [atoi_value_toDigits]
  unfold INT_MIN INT_MAX; omega

theorem to_size_t_natCast (n : Nat) (h : n < 2 ^ 64) : to_size_t (n : Int) = n := by
  unfold to_size_t; omega

theorem atoi_range (env : Env) (s : Str) : INT_MIN ≤ atoi env s ∧ atoi env s ≤ INT_MAX := by
  unfold atoi
  split
  · assumption
  · unfold to_int INT_MIN INT_MAX; omega

theorem to_size_t_of_int (v : Int) (h : INT_MIN ≤ v ∧ v ≤ INT_MAX) :
    to_size_t v ≠ 2147483648 := by
  unfold INT_MIN INT_MAX at h
  unfold to_size_t; omega

/-! ### The token loop never raises -/

theorem find_succ_mod_le (s : Str) (c : Char) : (find s c + 1) % SIZE_MOD ≤ s.length := by
  by_cases h : c ∈ s
  · exact Nat.le_trans (Nat.mod_le _ _) (find_lt_length h)
  · rw [find_not_mem h]
    have : (npos + 1) % SIZE_MOD = 0 := by decide
    omega

theorem comma_loop_ok (fuel : Nat) : ∀ (t : Str) (types : List template_type_t),
    ∃ r, comma_loop fuel t types = .ok r := by
  induction fuel with
  | zero => intro t types; exact ⟨_, rfl⟩
  | succ fuel ih =>
    intro t types
    unfold comma_loop
    split
    · rw [substr_ok t 0 _ (Nat.zero_le _), substr_ok t _ npos (find_succ_mod_le t ',')]
      exact ih _ _
    · exact ⟨_, rfl⟩

theorem push_types_ok (info : template_info_t) (tok : Str) :
    ∃ r, push_types info tok = .ok r := by
  unfold push_types
  obtain ⟨r, h⟩ := comma_loop_ok tok.length tok info.template_types
  rw [h]
  exact ⟨_, rfl⟩

theorem process_token_ok (root : template_info_t) (tok : Str) :
    ∃ r, process_token root tok = .ok r := by
  unfold process_token
  split
  · rename_i hc
    have hmem : '<' ∈ tok := contains_eq_true.1 hc
    have key : ∀ (tok2 : Str) (p : Bool), ∃ r,
        (do
          let type_name ← substr tok2 0 (find tok2 '<')
          let template_token ← substr tok2 ((find tok2 '<' + 1) % SIZE_MOD) npos
          let node ← push_types (.mk type_name [] p) template_token
          Except.ok (template_info_t.mk root.type_name
            (root.template_types ++ [template_type_t.info node]) root.is_pointer)) = .ok r := by
      intro tok2 p
      rw [substr_ok tok2 0 _ (Nat.zero_le _), substr_ok tok2 _ npos (find_succ_mod_le tok2 '<')]
      simp only [bind, Except.bind]
      obtain ⟨r3, hr3⟩ := push_types_ok (.mk (List.take (find tok2 '<') (List.drop 0 tok2)) [] p)
        (List.take npos (List.drop ((find tok2 '<' + 1) % SIZE_MOD) tok2))
      rw [hr3]
      exact ⟨_, rfl⟩
    have hlen : 1 ≤ tok.length := List.length_pos_of_mem hmem
    by_cases hp : char_at tok 0 = '*'
    · simp only [hp, decide_True, if_true]
      rw [substr_ok _ 1 npos hlen]
      exact key _ true
    · simp only [hp, decide_False, Bool.false_eq_true, if_false]
      exact key tok false
  · exact push_types_ok _ _

theorem process_tokens_ok (toks : List Str) : ∀ root : template_info_t,
    ∃ r, process_tokens toks root = .ok r := by
  induction toks with
  | nil => intro root; exact ⟨_, rfl⟩
  | cons tok toks ih =>
    intro root
    unfold process_tokens
    obtain ⟨r, h⟩ := process_token_ok root tok
    rw [h]
    exact ih r

/-! ### When the tokenizer raises -/

theorem tokenize_step_error (t : Str) (e : Exception) (hlen : t.length < npos)
    (h : tokenize_step t = .error e) : t.getLast? = some '>' := by
  unfold tokenize_step at h
  split at h
  · rename_i hlt
    have hne : t ≠ [] := List.ne_nil_of_mem (contains_eq_true.1 hlt)
    dsimp only at h
    rw [substr_ok t 0 _ (Nat.zero_le _)] at h
    simp only [bind, Except.bind] at h
    by_cases hgt : '>' ∈ t
    · have hf := find_lt_length hgt
      have hmod : (find t '>' + 2) % SIZE_MOD = find t '>' + 2 := by
        apply Nat.mod_eq_of_lt
        unfold npos at hlen; unfold SIZE_MOD; omega
      rw [hmod] at h
      by_cases hpos : find t '>' + 2 ≤ t.length
      · rw [substr_ok t _ npos hpos] at h
        injection h
      · have hidx : find t '>' = t.length - 1 := by omega
        simp only [find, hgt, if_true] at hidx
        rw [List.getLast?_eq_getElem?, ← hidx]
        exact List.getElem?_eq_some.2 ⟨List.indexOf_lt_length.2 hgt, List.indexOf_get _⟩
    · rw [find_not_mem hgt] at h
      have hmod : (npos + 2) % SIZE_MOD = 1 := by decide
      rw [hmod, substr_ok t 1 npos (List.length_pos.2 hne)] at h
      injection h
  · split at h
    · dsimp only at h
      rw [substr_ok t 0 _ (Nat.zero_le _), substr_ok t _ npos (find_succ_mod_le t ',')] at h
      injection h
    · split at h
      · dsimp only at h
        rw [substr_ok t 0 _ (Nat.zero_le _), substr_ok t _ npos (find_succ_mod_le t '>')] at h
        injection h
      · injection h

theorem take_npos (s : Str) (h : s.length < npos) (k : Nat) :
    List.take npos (List.drop k s) = List.drop k s := by
  apply List.take_of_length_le
  simp only [List.length_drop]; omega

theorem tokenize_step_suffix (t tok rest : Str) (hlen : t.length < npos)
    (h : tokenize_step t = .ok (some (tok, rest))) :
    rest <:+ t ∧ rest.length < t.length := by
  have hdrop : ∀ k, 0 < k → k ≤ t.length →
      List.drop k t <:+ t ∧ (List.drop k t).length < t.length := by
    intro k hk hkl
    exact ⟨List.drop_suffix _ _, by simp only [List.length_drop]; omega⟩
  have hbranch : ∀ c, c ∈ t → 0 < (find t c + 1) % SIZE_MOD ∧
      (find t c + 1) % SIZE_MOD ≤ t.length := by
    intro c hc
    have hf := find_lt_length hc
    have hmod : (find t c + 1) % SIZE_MOD = find t c + 1 := by
      apply Nat.mod_eq_of_lt
      unfold npos at hlen; unfold SIZE_MOD; omega
    omega
  unfold tokenize_step at h
  split at h
  · rename_i hlt
    have hne : t ≠ [] := List.ne_nil_of_mem (contains_eq_true.1 hlt)
    dsimp only at h
    rw [substr_ok t 0 _ (Nat.zero_le _)] at h
    simp only [bind, Except.bind] at h
    by_cases hgt : '>' ∈ t
    · have hf := find_lt_length hgt
      have hmod : (find t '>' + 2) % SIZE_MOD = find t '>' + 2 := by
        apply Nat.mod_eq_of_lt
        unfold npos at hlen; unfold SIZE_MOD; omega
      rw [hmod] at h
      by_cases hpos : find t '>' + 2 ≤ t.length
      · rw [substr_ok t _ npos hpos, take_npos t hlen] at h
        injection h with h; injection h with h
        have hr : List.drop (find t '>' + 2) t = rest := (Prod.mk.inj h).2
        rw [← hr]
        exact hdrop _ (by omega) hpos
      · unfold substr at h
        rw [if_pos (by omega)] at h
        injection h
    · rw [find_not_mem hgt] at h
      have hmod : (npos + 2) % SIZE_MOD = 1 := by decide
      rw [hmod, substr_ok t 1 npos (List.length_pos.2 hne), take_npos t hlen] at h
      injection h with h; injection h with h
      have hr : List.drop 1 t = rest := (Prod.mk.inj h).2
      rw [← hr]
      exact hdrop 1 (by omega) (List.length_pos.2 hne)
  · split at h
    · rename_i hc
      obtain ⟨h0, h1⟩ := hbranch ',' (contains_eq_true.1 hc)
      dsimp only at h
      rw [substr_ok t 0 _ (Nat.zero_le _), substr_ok t _ npos h1, take_npos t hlen] at h
      injection h with h; injection h with h
      have hr := (Prod.mk.inj h).2
      rw [← hr]
      exact hdrop _ h0 h1
    · split at h
      · rename_i hc
        obtain ⟨h0, h1⟩ := hbranch '>' (contains_eq_true.1 hc)
        dsimp only at h
        rw [substr_ok t 0 _ (Nat.zero_le _), substr_ok t _ npos h1, take_npos t hlen] at h
        injection h with h; injection h with h
        have hr := (Prod.mk.inj h).2
        rw [← hr]
        exact hdrop _ h0 h1
      · injection h with h; injection h

theorem tokenize_loop_error (fuel : Nat) : ∀ (t : Str) (acc : List Str) (e : Exception),
    t.length < npos → tokenize_loop fuel t acc = .error e → t.getLast? = some '>' := by
  induction fuel with
  | zero => intro t acc e _ h; injection h
  | succ fuel ih =>
    intro t acc e hlen h
    unfold tokenize_loop at h
    split at h
    · split at h
      · rename_i e2 heq
        exact tokenize_step_error t e2 hlen heq
      · injection h
      · rename_i tok rest heq
        obtain ⟨hsuf, hlt⟩ := tokenize_step_suffix t tok rest hlen heq
        have hr := ih rest _ e (by omega) h
        obtain ⟨pre, hpre⟩ := hsuf
        have hne : rest ≠ [] := by
          intro h0; rw [h0] at hr; simp at hr
        rw [← hpre, List.getLast?_append, hr]
        rfl
    · injection h

/-! ### The string path on a type that is not a bitfield -/

theorem parse_template_error (r : field_info_t) (e : Exception) (hlen : r.m_type.length < npos)
    (h : parse_template r = .error e) : r.m_type.getLast? = some '>' := by
  unfold parse_template at h
  rw [substr_ok _ 0 _ (Nat.zero_le _), substr_ok _ _ npos (find_succ_mod_le _ '<'),
    take_npos _ hlen] at h
  simp only [bind, Except.bind] at h
  split at h
  · rename_i e2 heq
    have hr := tokenize_loop_error _ _ _ e2
      (by simp only [List.length_drop]; omega) heq
    obtain ⟨pre, hpre⟩ := List.drop_suffix ((find r.m_type '<' + 1) % SIZE_MOD) r.m_type
    rw [← hpre, List.getLast?_append, hr]
    rfl
  · rename_i toks heq
    obtain ⟨root, hroot⟩ := process_tokens_ok toks
      (.mk (List.take (find r.m_type '<') (List.drop 0 r.m_type))
        r.m_template_info.template_types (decide (back r.m_type = '*')))
    rw [hroot] at h
    injection h

theorem remove_spaces_length_le (s : Str) : (remove_spaces s).length ≤ s.length :=
  List.length_filter_le _ _

theorem parse_of_not_bitfield (env : Env) (t name : Str) (sizes : List Nat)
    (h : ¬ kBitfieldTypePrefix <+: t) :
    parse env t name sizes = parse_type { m_name := name, m_array_sizes := sizes } t := by
  unfold parse
  dsimp only
  rw [parse_bitfield_not_bitfield env _ t h]
  rfl

/-- C5 (amended).  For every type string that does not begin with "bitfield:", the string-path
parse never raises the malformed-bitfield error: it returns a descriptor with bitfield width 0,
or it raises `std::out_of_range` from the tokenizer, which happens only for a string that
contains '<' and whose last character, once the whitespace is removed, is '>'. -/
theorem parse_not_bitfield (env : Env) (t name : Str) (sizes : List Nat)
    (hlen : t.length < npos) (h : ¬ kBitfieldTypePrefix <+: t) :
    (∃ d, parse env t name sizes = .ok d ∧ d.m_bitfield_size = 0) ∨
    (parse env t name sizes = .error .out_of_range ∧ '<' ∈ t ∧
      (remove_spaces t).getLast? = some '>') := by
  rw [parse_of_not_bitfield env t name sizes h]
  cases hres : parse_type { m_name := name, m_array_sizes := sizes } t with
  | ok d =>
    left
    exact ⟨d, rfl, parse_type_bitfield_size _ d t hres⟩
  | error e =>
    right
    have he : e = .out_of_range := oor_parse_type _ _ e hres
    subst he
    refine ⟨rfl, ?_⟩
    by_cases hlt : '<' ∈ t
    · refine ⟨hlt, ?_⟩
      unfold parse_type at hres
      dsimp only at hres
      split at hres
      · rename_i htem
        have hty : (normalize_type { m_name := name, m_array_sizes := sizes } t).m_type
            = apply_rules (remove_spaces t) := normalize_type_type _ t
        have hlt2 : '<' ∈ apply_rules (remove_spaces t) := by
          rw [← hty]
          unfold field_info_t.is_templated at htem
          rw [Bool.and_eq_true] at htem
          exact contains_eq_true.1 htem.1
        have hlt3 : '<' ∈ remove_spaces t := by
          by_contra hc
          exact apply_rules_no_lt hc hlt2
        have hty2 : (normalize_type { m_name := name, m_array_sizes := sizes } t).m_type
            = remove_spaces t := by rw [hty, apply_rules_of_lt hlt3]
        have := parse_template_error _ _ (by
          rw [hty2]; exact Nat.lt_of_le_of_lt (remove_spaces_length_le t) hlen) hres
        rw [hty2] at this
        exact this
      · injection hres
    · rw [parse_type_not_templated _ t (by simpa using hlt)] at hres
      injection hres

/-- Witness of `parse_not_bitfield`: the unbalanced string "A<B<C>". -/
theorem parse_not_bitfield_witness :
    (∃ d, parse sample_env "A<B<C>".toList "x".toList [] = .ok d ∧ d.m_bitfield_size = 0) ∨
    (parse sample_env "A<B<C>".toList "x".toList [] = .error .out_of_range ∧
      '<' ∈ "A<B<C>".toList ∧ (remove_spaces "A<B<C>".toList).getLast? = some '>') :=
  parse_not_bitfield sample_env "A<B<C>".toList "x".toList [] (by decide) (by decide)

/-! ### Bitfield widths -/

theorem wrapped_atoi_toDigits (env : Env) (n : Nat) (hpos : 0 < n) (hmax : n ≤ 2147483647) :
    wrapped_atoi env (Nat.toDigits 10 n) = .ok (n : Int) := by
  unfold wrapped_atoi
  rw [atoi_toDigits env n hmax]
  have : ¬ ((n : Int) = 0 ∧ char_at (Nat.toDigits 10 n) 0 ≠ '0') := by
    intro h; omega
  simp only [this, if_false]

theorem toDigits_no_lt (n : Nat) : '<' ∉ Nat.toDigits 10 n := by
  obtain ⟨pre, hpre, -, hdig, -⟩ := toDigitsCore_spec (n + 1) n [] (by omega)
  unfold Nat.toDigits
  rw [hpre, List.append_nil]
  intro h
  exact (isdigit_ne (hdig _ h)).2.2.2 rfl

/-- C3 (amended).  For every positive integer N that fits an `int` (N ≤ 2147483647), the
string-path parse of "bitfield:" followed by the decimal digits of N returns a descriptor with
`m_bitfield_size = N` and `is_bitfield() = true`, `guess_bitfield_type` being any total
function whose result for N is not a template instantiation (has no '<'). -/
theorem parse_bitfield_width (env : Env) (N : Nat) (name : Str) (sizes : List Nat)
    (hpos : 0 < N) (hmax : N ≤ 2147483647)
    (hguess : '<' ∉ env.guess_bitfield_type (N : Int)) :
    ∃ d, parse env (kBitfieldTypePrefix ++ Nat.toDigits 10 N) name sizes = .ok d ∧
      d.m_bitfield_size = N ∧ d.is_bitfield = true := by
  unfold parse
  dsimp only
  rw [parse_bitfield_bitfield, wrapped_atoi_toDigits env N hpos hmax]
  simp only [bind, Except.bind]
  rw [parse_type_not_templated]
  · refine ⟨_, rfl, ?_⟩
    have hsz : (normalize_type
        { m_type := env.guess_bitfield_type (N : Int), m_name := name, m_array_sizes := sizes,
          m_bitfield_size := to_size_t (N : Int) }
        (kBitfieldTypePrefix ++ Nat.toDigits 10 N)).m_bitfield_size = N := by
      unfold normalize_type
      dsimp only
      split <;> exact to_size_t_natCast N (by omega)
    refine ⟨hsz, ?_⟩
    unfold field_info_t.is_bitfield
    rw [hsz]
    simpa using Nat.pos_iff_ne_zero.1 hpos
  · dsimp only
    split
    · intro h
      rcases List.mem_append.1 h with h | h
      · exact absurd h (by decide)
      · exact toDigits_no_lt N h
    · exact hguess

/-- Witness of `parse_bitfield_width`: "bitfield:5". -/
theorem parse_bitfield_width_witness :
    ∃ d, parse sample_env "bitfield:5".toList "x".toList [] = .ok d ∧
      d.m_bitfield_size = 5 ∧ d.is_bitfield = true :=
  parse_bitfield_width sample_env 5 "x".toList [] (by decide) (by decide) (by decide)

/-- C3, counterexample: for N = 2147483648 = 2^31, whatever `atoi` and `guess_bitfield_type`
do, the parse of "bitfield:2147483648" does not return a descriptor of bitfield width N. -/
theorem parse_bitfield_width_overflow :
    ¬ ∃ (env : Env) (d : field_info_t),
      parse env (kBitfieldTypePrefix ++ Nat.toDigits 10 2147483648) "x".toList [] = .ok d ∧
        d.m_bitfield_size = 2147483648 := by
  rintro ⟨env, d, h, hw⟩
  unfold parse at h
  dsimp only at h
  rw [parse_bitfield_bitfield] at h
  cases hv : wrapped_atoi env (Nat.toDigits 10 2147483648) with
  | error e => rw [hv] at h; injection h
  | ok v =>
    rw [hv] at h
    have hsz := parse_type_bitfield_size _ d _ h
    dsimp only at hsz
    have hv2 : v = atoi env (Nat.toDigits 10 2147483648) := by
      unfold wrapped_atoi at hv
      dsimp only at hv
      split at hv
      · injection hv
      · injection hv with hv; exact hv.symm
    rw [hw] at hsz
    exact to_size_t_of_int v (hv2 ▸ atoi_range env _) hsz.symm

/-! ### Malformed bitfield widths -/

theorem parse_bitfield_string (env : Env) (r name : Str) (sizes : List Nat) :
    parse env (kBitfieldTypePrefix ++ r) name sizes =
      match wrapped_atoi env r with
      | .error e => .error e
      | .ok v => parse_type
          { m_type := env.guess_bitfield_type v, m_name := name, m_array_sizes := sizes,
            m_bitfield_size := to_size_t v } (kBitfieldTypePrefix ++ r) := by
  unfold parse
  dsimp only
  rw [parse_bitfield_bitfield]
  cases wrapped_atoi env r <;> rfl

/-- C4 (amended).  The parse of "bitfield:" + r raises the fatal parse error
(`std::runtime_error` of `wrapped_atoi`) exactly when `atoi` reads r as zero and r does not
begin with the character '0'; this is so for r = "abc".  A text with a non-digit character
after a leading integer, or a zero written with more than one character that begins with '0',
is accepted. -/
theorem parse_bitfield_error (env : Env) (name : Str) (sizes : List Nat) :
    (∀ r : Str, parse env (kBitfieldTypePrefix ++ r) name sizes = .error .runtime_error ↔
      (atoi env r = 0 ∧ char_at r 0 ≠ '0')) ∧
    parse env "bitfield:abc".toList name sizes = .error .runtime_error := by
  have key : ∀ r : Str, parse env (kBitfieldTypePrefix ++ r) name sizes = .error .runtime_error ↔
      (atoi env r = 0 ∧ char_at r 0 ≠ '0') := by
    intro r
    rw [parse_bitfield_string]
    unfold wrapped_atoi
    dsimp only
    by_cases hc : atoi env r = 0 ∧ char_at r 0 ≠ '0'
    · simp only [hc, if_true, ne_eq, not_false_eq_true, and_self]
    · rw [if_neg hc]
      simp only [hc, iff_false]
      intro h
      exact absurd (oor_parse_type _ _ _ h) (by decide)
  refine ⟨key, ?_⟩
  have h := (key "abc".toList).2 ⟨by
    rw [atoi_in_range] <;> decide, by decide⟩
  exact h

/-- C4, counterexample: r = "5abc" contains non-digit characters, yet the parse of
"bitfield:5abc" never raises the fatal parse error, and returns a descriptor of bitfield
width 5 whenever the guessed type name is not a template instantiation. -/
theorem parse_bitfield_trailing_text :
    (∃ c ∈ "5abc".toList, isdigit c = false) ∧
    (∀ env : Env, parse env "bitfield:5abc".toList "x".toList [] ≠ .error .runtime_error) ∧
    (∀ env : Env, '<' ∉ env.guess_bitfield_type 5 →
      ∃ d, parse env "bitfield:5abc".toList "x".toList [] = .ok d ∧ d.m_bitfield_size = 5) := by
  have hat : ∀ env : Env, atoi env "5abc".toList = 5 := by
    intro env
    rw [atoi_in_range] <;> decide
  have hw : ∀ env : Env, wrapped_atoi env "5abc".toList = .ok 5 := by
    intro env
    unfold wrapped_atoi
    rw [hat env]
    rfl
  have hp : ∀ env : Env, parse env "bitfield:5abc".toList "x".toList [] =
      parse_type
          { m_type := env.guess_bitfield_type 5, m_name := "x".toList, m_array_sizes := [],
            m_bitfield_size := to_size_t 5 } "bitfield:5abc".toList := by
    intro env
    have h := parse_bitfield_string env "5abc".toList "x".toList []
    rw [hw env] at h
    exact h
  refine ⟨⟨'a', by decide, by decide⟩, ?_, ?_⟩
  · intro env h
    rw [hp env] at h
    exact absurd (oor_parse_type _ _ _ h) (by decide)
  · intro env hg
    rw [hp env, parse_type_not_templated]
    · refine ⟨_, rfl, ?_⟩
      unfold normalize_type
      dsimp only
      split <;> rfl
    · dsimp only
      split
      · decide
      · exact hg

/-! ### `total_array_size` -/

theorem total_fold (ds : List Nat) : ∀ acc : Nat, 0 < acc → acc < 2 ^ 64 →
    (∀ k, k ≤ ds.length → (acc * (ds.take k).prod) % 2 ^ 64 ≠ 0) →
    ds.foldl (fun result size => if result = 0 then size else (result * size) % 2 ^ 64) acc
      = (acc * ds.prod) % 2 ^ 64 := by
  induction ds with
  | nil =>
    intro acc _ hlt _
    simp only [List.foldl_nil, List.prod_nil, Nat.mul_one]
    exact (Nat.mod_eq_of_lt hlt).symm
  | cons d ds ih =>
    intro acc hpos hlt hpre
    have h1 : (acc * d) % 2 ^ 64 ≠ 0 := by
      have := hpre 1 (by simp)
      simpa using this
    have hne : acc ≠ 0 := by omega
    simp only [List.foldl_cons, hne, if_false]
    rw [ih ((acc * d) % 2 ^ 64) (by omega) (Nat.mod_lt _ (by decide))]
    · rw [List.prod_cons, Nat.mod_mul_mod, Nat.mul_assoc]
    · intro k hk
      have := hpre (k + 1) (by simp only [List.length_cons]; omega)
      rw [List.take_succ_cons, List.prod_cons, ← Nat.mul_assoc] at this
      rw [Nat.mod_mul_mod]
      exact this

theorem total_array_size_eq (f : field_info_t) (hne : f.m_array_sizes ≠ [])
    (hsz : ∀ x ∈ f.m_array_sizes, x < 2 ^ 64)
    (hpre : ∀ k, 0 < k → k ≤ f.m_array_sizes.length → (f.m_array_sizes.take k).prod % 2 ^ 64 ≠ 0) :
    f.total_array_size = f.m_array_sizes.prod % 2 ^ 64 := by
  unfold field_info_t.total_array_size
  cases hds : f.m_array_sizes with
  | nil => exact absurd hds hne
  | cons d ds =>
    rw [hds] at hsz hpre
    have hd : d < 2 ^ 64 := hsz d (List.mem_cons_self _ _)
    have hd0 : 0 < d := by
      have := hpre 1 (by decide) (by simp)
      simp only [List.take_succ_cons, List.take_zero, List.prod_cons, List.prod_nil,
        Nat.mul_one] at this
      rcases Nat.eq_zero_or_pos d with h | h
      · rw [h] at this; exact absurd rfl this
      · exact h
    simp only [List.foldl_cons, if_true]
    rw [total_fold ds d hd0 hd, List.prod_cons]
    intro k hk
    have := hpre (k + 1) (by omega) (by simp only [List.length_cons]; omega)
    rw [List.take_succ_cons, List.prod_cons] at this
    exact this

/-- C8 (amended).  For every type string t on which the string-path parse succeeds, every
field name and every non-empty list ds of positive `size_t` values, parse(t, name, ds) returns
a descriptor whose `m_array_sizes` is ds, whose `is_array()` is true, and whose
`total_array_size()` is the product of ds modulo 2^64, provided no non-empty initial segment
of ds has a product that is a multiple of 2^64 (so in particular whenever the product of ds is
below 2^64). -/
theorem parse_array_sizes (env : Env) (t name : Str) (ds : List Nat)
    (hok : ∃ (name0 : Str) (ds0 : List Nat) (d0 : field_info_t), parse env t name0 ds0 = .ok d0)
    (hne : ds ≠ [])
    (hsz : ∀ x ∈ ds, 0 < x ∧ x < 2 ^ 64)
    (hpre : ∀ k, 0 < k → k ≤ ds.length → (ds.take k).prod % 2 ^ 64 ≠ 0) :
    ∃ d, parse env t name ds = .ok d ∧ d.m_array_sizes = ds ∧ d.is_array = true ∧
      d.total_array_size = ds.prod % 2 ^ 64 := by
  obtain ⟨name0, ds0, d0, h0⟩ := hok
  rw [parse_with] at h0
  rw [parse_with env t name ds]
  cases hres : parse env t [] [] with
  | error e => rw [hres] at h0; injection h0
  | ok d =>
    refine ⟨with_name_sizes d name ds, rfl, rfl, ?_, ?_⟩
    · unfold field_info_t.is_array with_name_sizes
      cases ds with
      | nil => exact absurd rfl hne
      | cons x xs => rfl
    · exact total_array_size_eq _ hne (fun x hx => (hsz x hx).2) hpre

/-- Witness of `parse_array_sizes`: the type "int32" with the array sizes [4, 2]. -/
theorem parse_array_sizes_witness :
    ∃ d, parse sample_env "int32".toList "x".toList [4, 2] = .ok d ∧ d.m_array_sizes = [4, 2] ∧
      d.is_array = true ∧ d.total_array_size = 8 :=
  parse_array_sizes sample_env "int32".toList "x".toList [4, 2]
    ⟨[], [], _, rfl⟩ (by decide) (by decide)
    (by
      intro k h0 hk
      have hk2 : k ≤ 2 := hk
      interval_cases k <;> decide)

/-- C8, counterexample: ds = [2^32, 2^32, 3] is a list of positive `size_t` values whose
product is 0 modulo 2^64, yet `total_array_size()` of the parsed descriptor is 3. -/
theorem total_array_size_wraps :
    (∀ x ∈ [4294967296, 4294967296, 3], 0 < x ∧ x < 2 ^ 64) ∧
    [4294967296, 4294967296, 3].prod % 2 ^ 64 = 0 ∧
    ∀ env : Env, ∃ d,
      parse env "int32".toList "x".toList [4294967296, 4294967296, 3] = .ok d ∧
        d.total_array_size = 3 := by
  refine ⟨by decide, by decide, fun env => ⟨_, rfl, by decide⟩⟩

/-! ### Single steps of the tokenizer -/

theorem size_mod_of_lt {n k : Nat} {s : Str} (hlen : s.length < npos) (h : n < s.length)
    (hk : k ≤ 2) : (n + k) % SIZE_MOD = n + k := by
  apply Nat.mod_eq_of_lt
  unfold npos at hlen; unfold SIZE_MOD; omega

theorem tokenize_step_nested (pre rest : Str) (c : Char)
    (hlen : (pre ++ '>' :: c :: rest).length < npos)
    (hlt : '<' ∈ pre) (hgt : '>' ∉ pre) :
    tokenize_step (pre ++ '>' :: c :: rest) =
      .ok (some (if c = '*' then '*' :: pre else pre, rest)) := by
  unfold tokenize_step
  have h1 : contains (pre ++ '>' :: c :: rest) '<' = true :=
    contains_eq_true.2 (List.mem_append_left _ hlt)
  rw [if_pos h1]
  dsimp only
  rw [find_append_cons pre (c :: rest) '>' hgt]
  have hle : pre.length < (pre ++ '>' :: c :: rest).length := by simp
  rw [size_mod_of_lt hlen hle (by decide), size_mod_of_lt hlen hle (by decide)]
  rw [substr_ok _ 0 _ (Nat.zero_le _), substr_ok _ (pre.length + 2) npos (by simp),
    take_npos _ hlen]
  have e1 : List.take pre.length (List.drop 0 (pre ++ '>' :: c :: rest)) = pre := by simp
  have e2 : List.drop (pre.length + 2) (pre ++ '>' :: c :: rest) = rest := by
    rw [List.drop_append]; rfl
  have e3 : char_at (pre ++ '>' :: c :: rest) (pre.length + 1) = c := by
    unfold char_at
    rw [List.getD_eq_getElem?_getD, List.getElem?_append_right (by omega)]
    simp
  rw [e1, e2, e3]
  rfl

theorem tokenize_step_comma (pre rest : Str)
    (hlen : (pre ++ ',' :: rest).length < npos)
    (hlt : '<' ∉ pre ++ ',' :: rest) (hc : ',' ∉ pre) :
    tokenize_step (pre ++ ',' :: rest) = .ok (some (pre, rest)) := by
  unfold tokenize_step
  rw [if_neg (by rw [Bool.not_eq_true]; exact contains_eq_false.2 hlt)]
  rw [if_pos (contains_eq_true.2 (by simp))]
  dsimp only
  rw [find_append_cons pre rest ',' hc]
  have hle : pre.length < (pre ++ ',' :: rest).length := by simp
  rw [size_mod_of_lt hlen hle (by decide)]
  rw [substr_ok _ 0 _ (Nat.zero_le _), substr_ok _ (pre.length + 1) npos (by simp),
    take_npos _ hlen]
  have e1 : List.take pre.length (List.drop 0 (pre ++ ',' :: rest)) = pre := by simp
  have e2 : List.drop (pre.length + 1) (pre ++ ',' :: rest) = rest := by
    rw [List.drop_append]; rfl
  rw [e1, e2]
  rfl

theorem tokenize_step_close (pre rest : Str)
    (hlen : (pre ++ '>' :: rest).length < npos)
    (hlt : '<' ∉ pre ++ '>' :: rest) (hc : ',' ∉ pre ++ '>' :: rest) (hgt : '>' ∉ pre) :
    tokenize_step (pre ++ '>' :: rest) = .ok (some (pre, rest)) := by
  unfold tokenize_step
  rw [if_neg (by rw [Bool.not_eq_true]; exact contains_eq_false.2 hlt)]
  rw [if_neg (by rw [Bool.not_eq_true]; exact contains_eq_false.2 hc)]
  rw [if_pos (contains_eq_true.2 (by simp))]
  dsimp only
  rw [find_append_cons pre rest '>' hgt]
  have hle : pre.length < (pre ++ '>' :: rest).length := by simp
  rw [size_mod_of_lt hlen hle (by decide)]
  rw [substr_ok _ 0 _ (Nat.zero_le _), substr_ok _ (pre.length + 1) npos (by simp),
    take_npos _ hlen]
  have e1 : List.take pre.length (List.drop 0 (pre ++ '>' :: rest)) = pre := by simp
  have e2 : List.drop (pre.length + 1) (pre ++ '>' :: rest) = rest := by
    rw [List.drop_append]; rfl
  rw [e1, e2]
  rfl

theorem tokenize_loop_done (fuel : Nat) (t : Str) (acc : List Str) (h : t.length ≤ 1) :
    tokenize_loop fuel t acc = .ok acc := by
  cases fuel with
  | zero => rfl
  | succ fuel =>
    unfold tokenize_loop
    rw [if_neg (by omega)]

theorem tokenize_loop_step (fuel : Nat) (t tok rest : Str) (acc : List Str)
    (hlen : 1 < t.length) (h : tokenize_step t = .ok (some (tok, rest))) :
    tokenize_loop (fuel + 1) t acc = tokenize_loop fuel rest (acc ++ [tok]) := by
  conv_lhs => unfold tokenize_loop
  rw [if_pos hlen, h]

/-! ### Single steps of the per-token loop -/

theorem comma_loop_last (fuel : Nat) (t : Str) (types : List template_type_t) (h : ',' ∉ t) :
    comma_loop fuel t types = .ok (types, t) := by
  cases fuel with
  | zero => rfl
  | succ fuel =>
    unfold comma_loop
    rw [if_neg (by rw [Bool.not_eq_true]; exact contains_eq_false.2 h)]

theorem comma_loop_step (fuel : Nat) (pre rest : Str) (types : List template_type_t)
    (hlen : (pre ++ ',' :: rest).length < npos) (h : ',' ∉ pre) :
    comma_loop (fuel + 1) (pre ++ ',' :: rest) types =
      comma_loop fuel rest (types ++ [template_type_t.str pre]) := by
  conv_lhs => unfold comma_loop
  rw [if_pos (contains_eq_true.2 (by simp))]
  rw [find_append_cons pre rest ',' h]
  have hle : pre.length < (pre ++ ',' :: rest).length := by simp
  rw [size_mod_of_lt hlen hle (by decide)]
  rw [substr_ok _ 0 _ (Nat.zero_le _), substr_ok _ (pre.length + 1) npos (by simp),
    take_npos _ hlen]
  have e1 : List.take pre.length (List.drop 0 (pre ++ ',' :: rest)) = pre := by simp
  have e2 : List.drop (pre.length + 1) (pre ++ ',' :: rest) = rest := by
    rw [List.drop_append]; rfl
  rw [e1, e2]
  rfl

/-! ### The fuel of the loops is never used up -/

theorem tokenize_loop_fuel (fuel1 : Nat) : ∀ (fuel2 : Nat) (t : Str) (acc : List Str),
    t.length ≤ fuel1 → t.length ≤ fuel2 → t.length < npos →
    tokenize_loop fuel1 t acc = tokenize_loop fuel2 t acc := by
  induction fuel1 with
  | zero =>
    intro fuel2 t acc h1 _ _
    rw [tokenize_loop_done 0 t acc (by omega), tokenize_loop_done fuel2 t acc (by omega)]
  | succ f1 ih =>
    intro fuel2 t acc h1 h2 hlen
    by_cases hl : t.length ≤ 1
    · rw [tokenize_loop_done _ t acc hl, tokenize_loop_done fuel2 t acc hl]
    · obtain ⟨f2, rfl⟩ : ∃ f2, fuel2 = f2 + 1 := ⟨fuel2 - 1, by omega⟩
      have hgt : t.length > 1 := by omega
      unfold tokenize_loop
      rw [if_pos hgt, if_pos hgt]
      cases hstep : tokenize_step t with
      | error e => rfl
      | ok r =>
        cases r with
        | none => rfl
        | some tr =>
          obtain ⟨tok, rest⟩ := tr
          have hs := tokenize_step_suffix t tok rest hlen hstep
          exact ih f2 rest _ (by omega) (by omega) (by omega)

theorem comma_loop_fuel (fuel1 : Nat) : ∀ (fuel2 : Nat) (t : Str) (types : List template_type_t),
    t.length ≤ fuel1 → t.length ≤ fuel2 → t.length < npos →
    comma_loop fuel1 t types = comma_loop fuel2 t types := by
  induction fuel1 with
  | zero =>
    intro fuel2 t types h1 _ _
    have ht : t = [] := List.length_eq_zero.1 (by omega)
    subst ht
    rw [comma_loop_last 0 [] types (by simp), comma_loop_last fuel2 [] types (by simp)]
  | succ f1 ih =>
    intro fuel2 t types h1 h2 hlen
    by_cases hc : ',' ∈ t
    · obtain ⟨pre, rest, rfl, hpre⟩ : ∃ pre rest, t = pre ++ ',' :: rest ∧ ',' ∉ pre := by
        obtain ⟨pre, rest, h, hp⟩ := List.eq_append_cons_of_mem hc
        exact ⟨pre, rest, h, hp⟩
      have hl : rest.length < (pre ++ ',' :: rest).length := by
        simp only [List.length_append, List.length_cons]; omega
      obtain ⟨f2, rfl⟩ : ∃ f2, fuel2 = f2 + 1 := ⟨fuel2 - 1, by omega⟩
      rw [comma_loop_step f1 pre rest types hlen hpre, comma_loop_step f2 pre rest types hlen hpre]
      exact ih f2 rest _ (by omega) (by omega) (by omega)
    · rw [comma_loop_last _ t types hc, comma_loop_last fuel2 t types hc]

/-! ### Identifiers and comma-joined texts -/

theorem ident_char_ne {c : Char} (h : is_ident_char c = true) :
    c ≠ '<' ∧ c ≠ '>' ∧ c ≠ ',' ∧ c ≠ '*' ∧ c ≠ ':' ∧ isspace c = false := by
  refine ⟨?_, ?_, ?_, ?_, ?_, ?_⟩
  iterate 5 (rintro rfl; exact absurd h (by decide))
  cases hs : isspace c with
  | false => rfl
  | true =>
    simp only [isspace, Bool.or_eq_true, decide_eq_true_eq] at hs
    rcases hs with ((((hs | hs) | hs) | hs) | hs) | hs <;> (subst hs; exact absurd h (by decide))

theorem is_identifier.plain {s : Str} (h : is_identifier s) : plain s := by
  refine ⟨?_, ?_, ?_, ?_, ?_, ?_⟩
  · exact fun hm => (ident_char_ne (h.2 _ hm)).1 rfl
  · exact fun hm => (ident_char_ne (h.2 _ hm)).2.1 rfl
  · exact fun hm => (ident_char_ne (h.2 _ hm)).2.2.1 rfl
  · exact fun hm => (ident_char_ne (h.2 _ hm)).2.2.2.1 rfl
  · exact fun hm => (ident_char_ne (h.2 _ hm)).2.2.2.2.1 rfl
  · exact fun c hm => (ident_char_ne (h.2 _ hm)).2.2.2.2.2

theorem rules_identifier : ∀ rule ∈ kTypeNameToCpp, is_identifier rule.2 := by decide

theorem apply_rules_identifier {s : Str} (h : is_identifier s) : is_identifier (apply_rules s) := by
  unfold apply_rules
  split
  · rename_i rule heq
    exact rules_identifier rule (List.mem_of_find?_eq_some heq)
  · exact h

theorem rules_idempotent : ∀ rule ∈ kTypeNameToCpp, apply_rules rule.2 = rule.2 := by decide

theorem apply_rules_idem (s : Str) : apply_rules (apply_rules s) = apply_rules s := by
  conv_lhs => arg 1; unfold apply_rules
  split
  · rename_i rule heq
    have h := rules_idempotent rule (List.mem_of_find?_eq_some heq)
    conv_rhs => unfold apply_rules
    rw [heq]
    exact h
  · rfl

theorem commas_cons (x : Str) (xs : List Str) (h : xs ≠ []) :
    commas (x :: xs) = x ++ ',' :: commas xs := by
  cases xs with
  | nil => exact absurd rfl h
  | cons y ys => rfl

theorem commas_append_last (xs : List Str) (y z : Str) :
    commas (xs ++ [y ++ z]) = commas (xs ++ [y]) ++ z := by
  induction xs with
  | nil => rfl
  | cons x xs ih =>
    rw [List.cons_append, List.cons_append, commas_cons _ _ (by simp), commas_cons _ _ (by simp), ih]
    simp

theorem commas_append (xs ys : List Str) (hx : xs ≠ []) (hy : ys ≠ []) :
    commas (xs ++ ys) = commas xs ++ ',' :: commas ys := by
  induction xs with
  | nil => exact absurd rfl hx
  | cons x xs ih =>
    cases xs with
    | nil => exact commas_cons x ys hy
    | cons x2 xs2 =>
      rw [List.cons_append, commas_cons x (x2 :: xs2 ++ ys) (by simp), ih (by simp),
        commas_cons x (x2 :: xs2) (by simp)]
      simp

theorem mem_commas {c : Char} {xs : List Str} (h : c ∈ commas xs) :
    c = ',' ∨ ∃ x ∈ xs, c ∈ x := by
  induction xs with
  | nil => exact absurd h (List.not_mem_nil _)
  | cons x xs ih =>
    cases xs with
    | nil => exact Or.inr ⟨x, List.mem_cons_self _ _, h⟩
    | cons y ys =>
      rw [commas_cons _ _ (by simp)] at h
      rcases List.mem_append.1 h with h | h
      · exact Or.inr ⟨x, List.mem_cons_self _ _, h⟩
      · rcases List.mem_cons.1 h with h | h
        · exact Or.inl h
        · rcases ih h with h | ⟨z, hz, hc⟩
          · exact Or.inl h
          · exact Or.inr ⟨z, List.mem_cons_of_mem _ hz, hc⟩

theorem not_mem_commas {c : Char} {xs : List Str} (hc : c ≠ ',') (h : ∀ x ∈ xs, c ∉ x) :
    c ∉ commas xs := by
  intro hm
  rcases mem_commas hm with h1 | ⟨x, hx, hcx⟩
  · exact hc h1
  · exact h x hx hcx

theorem commas_ne_nil {xs : List Str} (hne : xs ≠ []) (h : ∀ x ∈ xs, x ≠ []) : commas xs ≠ [] := by
  cases xs with
  | nil => exact absurd rfl hne
  | cons x xs =>
    cases xs with
    | nil => exact h x (List.mem_cons_self _ _)
    | cons y ys =>
      rw [commas_cons _ _ (by simp)]
      intro h0
      exact h x (List.mem_cons_self _ _) (List.append_eq_nil.1 h0).1

theorem mem_commas_of_mem {c : Char} {x : Str} {xs : List Str} (hx : x ∈ xs) (hc : c ∈ x) :
    c ∈ commas xs := by
  induction xs with
  | nil => exact absurd hx (List.not_mem_nil _)
  | cons y ys ih =>
    cases ys with
    | nil =>
      rcases List.mem_cons.1 hx with h | h
      · exact h ▸ hc
      · exact absurd h (List.not_mem_nil _)
    | cons z zs =>
      rw [commas_cons _ _ (by simp)]
      rcases List.mem_cons.1 hx with h | h
      · exact List.mem_append_left _ (h ▸ hc)
      · exact List.mem_append_right _ (List.mem_cons_of_mem _ (ih h))

/-! ### The tokenizer on a well-formed argument list -/

theorem Group.lt_mem_token (g : Group) : '<' ∈ g.token := by
  unfold Group.token
  exact mem_commas_of_mem (x := g.name ++ '<' :: commas g.args) (by simp) (by simp)

theorem Group.token_no_gt (g : Group) (h : g.wf) : '>' ∉ g.token := by
  unfold Group.token
  apply not_mem_commas (by decide)
  intro x hx
  rcases List.mem_append.1 hx with hx | hx
  · exact (h.1 x hx).plain.2.1
  · rw [List.mem_singleton] at hx
    subst hx
    intro hm
    rcases List.mem_append.1 hm with hm | hm
    · exact h.2.1.plain.2.1 hm
    · rcases List.mem_cons.1 hm with hm | hm
      · exact absurd hm (by decide)
      · exact not_mem_commas (by decide) (fun y hy => (h.2.2.2 y hy).plain.2.1) hm

theorem leaves_no_lt {tr : List Str} (h : ∀ x ∈ tr, is_identifier x) : '<' ∉ commas tr :=
  not_mem_commas (by decide) fun x hx => (h x hx).plain.1

theorem tokenize_leaves (ptr : Str) (hptr : ptr.length ≤ 1) (hp1 : '<' ∉ ptr) (hp2 : ',' ∉ ptr)
    (tr : List Str) : tr ≠ [] → (∀ x ∈ tr, is_identifier x) →
    ∀ (fuel : Nat) (acc : List Str), (commas tr ++ '>' :: ptr).length ≤ fuel →
      (commas tr ++ '>' :: ptr).length < npos →
      tokenize_loop fuel (commas tr ++ '>' :: ptr) acc = .ok (acc ++ tr) := by
  induction tr with
  | nil => intro h; exact absurd rfl h
  | cons x xs ih =>
    intro _ hwf fuel acc hfuel hlen
    have hx := hwf x (List.mem_cons_self _ _)
    have hxs : ∀ y ∈ xs, is_identifier y := fun y hy => hwf y (List.mem_cons_of_mem _ hy)
    have hxlen : 0 < x.length := List.length_pos.2 hx.1
    cases xs with
    | nil =>
      have htext : commas [x] ++ '>' :: ptr = x ++ '>' :: ptr := rfl
      rw [htext] at hfuel hlen ⊢
      have h2 : 1 < (x ++ '>' :: ptr).length := by
        simp only [List.length_append, List.length_cons]; omega
      obtain ⟨f, rfl⟩ : ∃ f, fuel = f + 1 := ⟨fuel - 1, by omega⟩
      rw [tokenize_loop_step f _ x ptr acc h2
        (tokenize_step_close x ptr hlen
          (by
            intro hm
            rcases List.mem_append.1 hm with hm | hm
            · exact hx.plain.1 hm
            · rcases List.mem_cons.1 hm with hm | hm
              · exact absurd hm (by decide)
              · exact hp1 hm)
          (by
            intro hm
            rcases List.mem_append.1 hm with hm | hm
            · exact hx.plain.2.2.1 hm
            · rcases List.mem_cons.1 hm with hm | hm
              · exact absurd hm (by decide)
              · exact hp2 hm)
          hx.plain.2.1)]
      exact tokenize_loop_done f ptr _ hptr
    | cons y ys =>
      have htext : commas (x :: y :: ys) ++ '>' :: ptr
          = x ++ ',' :: (commas (y :: ys) ++ '>' :: ptr) := by
        rw [commas_cons _ _ (by simp)]; simp
      rw [htext] at hfuel hlen ⊢
      have h2 : 1 < (x ++ ',' :: (commas (y :: ys) ++ '>' :: ptr)).length := by
        simp only [List.length_append, List.length_cons]; omega
      obtain ⟨f, rfl⟩ : ∃ f, fuel = f + 1 := ⟨fuel - 1, by omega⟩
      rw [tokenize_loop_step f _ x _ acc h2
        (tokenize_step_comma x _ hlen
          (by
            intro hm
            rcases List.mem_append.1 hm with hm | hm
            · exact hx.plain.1 hm
            · rcases List.mem_cons.1 hm with hm | hm
              · exact absurd hm (by decide)
              · rcases List.mem_append.1 hm with hm | hm
                · exact leaves_no_lt hxs hm
                · rcases List.mem_cons.1 hm with hm | hm
                  · exact absurd hm (by decide)
                  · exact hp1 hm)
          hx.plain.2.2.1)]
      have hl : (commas (y :: ys) ++ '>' :: ptr).length
          < (x ++ ',' :: (commas (y :: ys) ++ '>' :: ptr)).length := by
        simp only [List.length_append, List.length_cons]; omega
      rw [ih (by simp) hxs f (acc ++ [x]) (by omega) (by omega)]
      simp

theorem tokenize_groups (ptr : Str) (hptr : ptr.length ≤ 1) (hp1 : '<' ∉ ptr) (hp2 : ',' ∉ ptr)
    (tr : List Str) (htr : ∀ x ∈ tr, is_identifier x) (gs : List Group) :
    (∀ g ∈ gs, g.wf) → (gs ≠ [] ∨ tr ≠ []) →
    ∀ (fuel : Nat) (acc : List Str), (args_text gs tr ++ '>' :: ptr).length ≤ fuel →
      (args_text gs tr ++ '>' :: ptr).length < npos →
      tokenize_loop fuel (args_text gs tr ++ '>' :: ptr) acc
        = .ok (acc ++ (gs.map Group.token ++ tr)) := by
  induction gs with
  | nil =>
    intro _ hne fuel acc hfuel hlen
    have hne2 : tr ≠ [] := by
      rcases hne with h | h
      · exact absurd rfl h
      · exact h
    exact tokenize_leaves ptr hptr hp1 hp2 tr hne2 htr fuel acc hfuel hlen
  | cons g gs ih =>
    intro hwf _ fuel acc hfuel hlen
    have hg := hwf g (List.mem_cons_self _ _)
    have hgs : ∀ g2 ∈ gs, g2.wf := fun g2 h2 => hwf g2 (List.mem_cons_of_mem _ h2)
    by_cases hrest : gs.map Group.text ++ tr = []
    · have hgs0 : gs = [] := by
        cases gs with
        | nil => rfl
        | cons a b => simp at hrest
      have htr0 : tr = [] := by
        cases tr with
        | nil => rfl
        | cons a b => simp at hrest
      subst hgs0; subst htr0
      have htext : args_text [g] [] ++ '>' :: ptr = g.token ++ '>' :: '>' :: ptr := by
        unfold args_text Group.text
        simp [commas]
      rw [htext] at hfuel hlen ⊢
      have h2 : 1 < (g.token ++ '>' :: '>' :: ptr).length := by
        simp only [List.length_append, List.length_cons]; omega
      obtain ⟨f, rfl⟩ : ∃ f, fuel = f + 1 := ⟨fuel - 1, by omega⟩
      rw [tokenize_loop_step f _ _ _ acc h2
        (tokenize_step_nested g.token ptr '>' hlen g.lt_mem_token (g.token_no_gt hg))]
      rw [tokenize_loop_done f ptr _ hptr]
      simp
    · have hne2 : gs ≠ [] ∨ tr ≠ [] := by
        by_contra hc
        rw [not_or, not_not, not_not] at hc
        exact hrest (by rw [hc.1, hc.2]; rfl)
      have htext : args_text (g :: gs) tr ++ '>' :: ptr
          = g.token ++ '>' :: ',' :: (args_text gs tr ++ '>' :: ptr) := by
        simp only [args_text, List.map_cons, List.cons_append]
        rw [commas_cons _ _ hrest]
        simp [Group.text]
      rw [htext] at hfuel hlen ⊢
      have h2 : 1 < (g.token ++ '>' :: ',' :: (args_text gs tr ++ '>' :: ptr)).length := by
        simp only [List.length_append, List.length_cons]; omega
      obtain ⟨f, rfl⟩ : ∃ f, fuel = f + 1 := ⟨fuel - 1, by omega⟩
      rw [tokenize_loop_step f _ _ _ acc h2
        (tokenize_step_nested g.token _ ',' hlen g.lt_mem_token (g.token_no_gt hg))]
      have hl : (args_text gs tr ++ '>' :: ptr).length
          < (g.token ++ '>' :: ',' :: (args_text gs tr ++ '>' :: ptr)).length := by
        simp only [List.length_append, List.length_cons]; omega
      rw [if_neg (by decide), ih hgs hne2 f (acc ++ [g.token]) (by omega) (by omega)]
      simp

/-! ### The per-token loop on the tokens of a well-formed argument list -/

theorem replace_types_append (a b : List template_type_t) :
    replace_types (a ++ b) = replace_types a ++ replace_types b := by
  unfold replace_types; exact List.map_append _ _ _

theorem replace_types_strs (ys : List Str) :
    replace_types (ys.map template_type_t.str)
      = ys.map fun y => template_type_t.str (apply_rules y) := by
  unfold replace_types
  rw [List.map_map]
  rfl

theorem replace_types_normalized (ys : List Str) :
    replace_types (ys.map fun y => template_type_t.str (apply_rules y))
      = ys.map fun y => template_type_t.str (apply_rules y) := by
  unfold replace_types
  rw [List.map_map]
  apply List.map_congr_left
  intro y _
  simp only [Function.comp, apply_rules_idem]

theorem length_le_commas {x : Str} {xs : List Str} (hx : x ∈ xs) :
    x.length ≤ (commas xs).length := by
  induction xs with
  | nil => exact absurd hx (List.not_mem_nil _)
  | cons y ys ih =>
    cases ys with
    | nil =>
      rcases List.mem_cons.1 hx with h | h
      · rw [h]; exact Nat.le_refl _
      · exact absurd h (List.not_mem_nil _)
    | cons z zs =>
      rw [commas_cons _ _ (by simp)]
      simp only [List.length_append, List.length_cons]
      rcases List.mem_cons.1 hx with h | h
      · rw [h]; omega
      · have := ih h; omega

theorem comma_loop_commas (ys : List Str) : ys ≠ [] → (∀ y ∈ ys, is_identifier y) →
    ∀ (fuel : Nat) (types : List template_type_t), (commas ys).length ≤ fuel →
      (commas ys).length < npos →
      ∃ types2 last, comma_loop fuel (commas ys) types = .ok (types2, last) ∧
        types2 ++ [template_type_t.str last] = types ++ ys.map template_type_t.str := by
  induction ys with
  | nil => intro h; exact absurd rfl h
  | cons y ys ih =>
    intro _ hwf fuel types hfuel hlen
    have hy := hwf y (List.mem_cons_self _ _)
    cases ys with
    | nil =>
      exact ⟨types, y, comma_loop_last fuel y types hy.plain.2.2.1, rfl⟩
    | cons z zs =>
      have htext : commas (y :: z :: zs) = y ++ ',' :: commas (z :: zs) := rfl
      rw [htext] at hfuel hlen ⊢
      have hl : (commas (z :: zs)).length < (y ++ ',' :: commas (z :: zs)).length := by
        simp only [List.length_append, List.length_cons]; omega
      obtain ⟨f, rfl⟩ : ∃ f, fuel = f + 1 := ⟨fuel - 1, by omega⟩
      rw [comma_loop_step f y _ types hlen hy.plain.2.2.1]
      obtain ⟨types2, last, h1, h2⟩ := ih (by simp)
        (fun w hw => hwf w (List.mem_cons_of_mem _ hw)) f (types ++ [template_type_t.str y])
        (by omega) (by omega)
      exact ⟨types2, last, h1, by rw [h2]; simp⟩

theorem push_types_commas (info : template_info_t) (ys : List Str) (hne : ys ≠ [])
    (hwf : ∀ y ∈ ys, is_identifier y) (hlen : (commas ys).length < npos) :
    push_types info (commas ys) = .ok (.mk info.type_name
      (replace_types (info.template_types ++ ys.map template_type_t.str)) info.is_pointer) := by
  unfold push_types
  obtain ⟨types2, last, h1, h2⟩ :=
    comma_loop_commas ys hne hwf (commas ys).length info.template_types (Nat.le_refl _) hlen
  rw [h1]
  simp only [bind, Except.bind]
  rw [h2]

theorem Group.token_eq (g : Group) :
    g.token = commas (g.leaves ++ [g.name]) ++ '<' :: commas g.args := by
  unfold Group.token
  exact commas_append_last g.leaves g.name ('<' :: commas g.args)

theorem Group.head_facts (g : Group) (h : g.wf) :
    '<' ∉ commas (g.leaves ++ [g.name]) ∧ '*' ∉ commas (g.leaves ++ [g.name]) ∧
      commas (g.leaves ++ [g.name]) ≠ [] := by
  have hall : ∀ x ∈ g.leaves ++ [g.name], is_identifier x := by
    intro x hx
    rcases List.mem_append.1 hx with hx | hx
    · exact h.1 x hx
    · rw [List.mem_singleton] at hx; exact hx ▸ h.2.1
  refine ⟨?_, ?_, ?_⟩
  · exact not_mem_commas (by decide) fun x hx => (hall x hx).plain.1
  · exact not_mem_commas (by decide) fun x hx => (hall x hx).plain.2.2.2.1
  · exact commas_ne_nil (by simp) fun x hx => (hall x hx).1

theorem char_at_zero_mem (s rest : Str) (h : s ≠ []) : char_at (s ++ rest) 0 ∈ s := by
  cases s with
  | nil => exact absurd rfl h
  | cons c cs => exact List.mem_cons_self _ _

theorem process_token_group (root : template_info_t) (g : Group) (h : g.wf)
    (hlen : g.token.length < npos) :
    process_token root g.token =
      .ok (.mk root.type_name (root.template_types ++ [g.node]) root.is_pointer) := by
  obtain ⟨hlt, hstar, hne⟩ := g.head_facts h
  unfold process_token
  rw [if_pos (contains_eq_true.2 g.lt_mem_token)]
  have hp : char_at g.token 0 ≠ '*' := by
    rw [g.token_eq]
    intro hc
    exact hstar (hc ▸ char_at_zero_mem _ _ hne)
  simp only [hp, decide_False, Bool.false_eq_true, if_false, bind, Except.bind]
  have hfind : find g.token '<' = (commas (g.leaves ++ [g.name])).length := by
    rw [g.token_eq]; exact find_append_cons _ _ '<' hlt
  have hlt2 : (commas (g.leaves ++ [g.name])).length < g.token.length := by
    rw [g.token_eq]; simp only [List.length_append, List.length_cons]; omega
  rw [hfind, size_mod_of_lt hlen hlt2 (by decide), substr_ok _ 0 _ (Nat.zero_le _),
    substr_ok _ _ npos (by omega), take_npos _ hlen]
  have e1 : List.take (commas (g.leaves ++ [g.name])).length (List.drop 0 g.token)
      = commas (g.leaves ++ [g.name]) := by
    rw [g.token_eq]; simp
  have e2 : List.drop ((commas (g.leaves ++ [g.name])).length + 1) g.token = commas g.args := by
    rw [g.token_eq, List.drop_append]; rfl
  rw [e1, e2]
  dsimp only
  have hargs : (commas g.args).length < npos := by
    have : (commas g.args).length ≤ g.token.length := by
      rw [g.token_eq]; simp only [List.length_append, List.length_cons]; omega
    omega
  rw [push_types_commas _ g.args h.2.2.1 h.2.2.2 hargs]
  dsimp only
  have : replace_types ((template_info_t.mk (commas (g.leaves ++ [g.name])) [] false).template_types
      ++ g.args.map template_type_t.str)
      = g.args.map fun y => template_type_t.str (apply_rules y) := by
    show replace_types ([] ++ g.args.map template_type_t.str) = _
    rw [List.nil_append, replace_types_strs]
  rw [this]
  rfl

theorem process_token_leaf (root : template_info_t) (x : Str) (h : is_identifier x) :
    process_token root x = .ok (.mk root.type_name
      (replace_types (root.template_types ++ [template_type_t.str x])) root.is_pointer) := by
  unfold process_token
  rw [if_neg (by rw [Bool.not_eq_true]; exact contains_eq_false.2 h.plain.1)]
  unfold push_types
  rw [comma_loop_last _ _ _ h.plain.2.2.1]
  rfl

theorem process_tokens_leaves (A : Str) (p : Bool) (tr : List Str) :
    (∀ x ∈ tr, is_identifier x) → ∀ T : List template_type_t, replace_types T = T →
      process_tokens tr (.mk A T p) =
        .ok (.mk A (T ++ tr.map fun x => template_type_t.str (apply_rules x)) p) := by
  induction tr with
  | nil => intro _ T _; simp [process_tokens]
  | cons x xs ih =>
    intro hwf T hT
    unfold process_tokens
    rw [process_token_leaf _ x (hwf x (List.mem_cons_self _ _))]
    simp only [bind, Except.bind]
    have hT2 : replace_types (T ++ [template_type_t.str x])
        = T ++ [template_type_t.str (apply_rules x)] := by
      rw [replace_types_append, hT]; rfl
    show process_tokens xs (.mk A (replace_types (T ++ [template_type_t.str x])) p) = _
    rw [hT2, ih (fun y hy => hwf y (List.mem_cons_of_mem _ hy))]
    · simp
    · rw [replace_types_append, hT]
      show T ++ [template_type_t.str (apply_rules (apply_rules x))] = _
      rw [apply_rules_idem]

theorem process_tokens_groups (A : Str) (p : Bool) (tr : List Str)
    (htr : ∀ x ∈ tr, is_identifier x) (gs : List Group) :
    (∀ g ∈ gs, g.wf ∧ g.token.length < npos) →
    ∀ T : List template_type_t, replace_types T = T →
      process_tokens (gs.map Group.token ++ tr) (.mk A T p) =
        .ok (.mk A (T ++ (gs.map Group.node
          ++ tr.map fun x => template_type_t.str (apply_rules x))) p) := by
  induction gs with
  | nil =>
    intro _ T hT
    exact process_tokens_leaves A p tr htr T hT
  | cons g gs ih =>
    intro hwf T hT
    obtain ⟨hg, hglen⟩ := hwf g (List.mem_cons_self _ _)
    rw [List.map_cons, List.cons_append]
    unfold process_tokens
    rw [process_token_group _ g hg hglen]
    simp only [bind, Except.bind]
    show process_tokens _ (.mk A (T ++ [g.node]) p) = _
    rw [ih (fun g2 h2 => hwf g2 (List.mem_cons_of_mem _ h2))]
    · simp
    · rw [replace_types_append, hT]; rfl

/-! ### Serialisation -/

theorem types_to_string_succ (ts : List template_type_t) : ∀ i : Nat,
    types_to_string (i + 1) ts = (ts.map fun t => ',' :: type_to_string t).flatten := by
  induction ts with
  | nil => intro i; simp [types_to_string]
  | cons t ts ih =>
    intro i
    rw [types_to_string, ih]
    simp

theorem commas_cons_join (x : Str) (xs : List Str) :
    commas (x :: xs) = x ++ (xs.map fun y => ',' :: y).flatten := by
  induction xs generalizing x with
  | nil => simp [commas]
  | cons y ys ih =>
    rw [commas_cons _ _ (by simp), ih]
    simp

theorem types_to_string_zero (ts : List template_type_t) :
    types_to_string 0 ts = commas (ts.map type_to_string) := by
  cases ts with
  | nil => simp [types_to_string, commas]
  | cons t ts =>
    rw [types_to_string, types_to_string_succ, List.map_cons, commas_cons_join]
    simp [List.map_map, Function.comp_def]

theorem to_string_eq (n : Str) (ts : List template_type_t) (p : Bool) :
    (template_info_t.mk n ts p).to_string
      = n ++ '<' :: (commas (ts.map type_to_string) ++ '>' :: (if p then ['*'] else [])) := by
  rw [template_info_t.to_string, types_to_string_zero]
  simp

theorem Group.node_to_string (g : Group) : type_to_string g.node = g.normalize.text := by
  unfold Group.node Group.text Group.normalize
  rw [type_to_string, to_string_eq, Group.token_eq]
  simp [List.map_map, Function.comp_def, type_to_string]

theorem generic_node_to_string (A : Str) (gs : List Group) (tr : List Str) (p : Bool) :
    (generic_node A gs tr p).to_string
      = generic_text A (gs.map Group.normalize) (tr.map apply_rules) p := by
  unfold generic_node generic_text args_text
  rw [to_string_eq]
  have h1 : (gs.map Group.node).map type_to_string = (gs.map Group.normalize).map Group.text := by
    simp only [List.map_map]
    apply List.map_congr_left
    intro g _
    exact g.node_to_string
  have h2 : (tr.map fun x => template_type_t.str (apply_rules x)).map type_to_string
      = tr.map apply_rules := by
    simp only [List.map_map]
    apply List.map_congr_left
    intro x _
    simp [type_to_string]
  rw [List.map_append, h1, h2]

theorem Group.normalize_node (g : Group) : g.normalize.node = g.node := by
  unfold Group.node Group.normalize
  simp [List.map_map, Function.comp_def, apply_rules_idem]

theorem generic_node_normalize (A : Str) (gs : List Group) (tr : List Str) (p : Bool) :
    generic_node A (gs.map Group.normalize) (tr.map apply_rules) p = generic_node A gs tr p := by
  unfold generic_node
  simp [List.map_map, Function.comp_def, apply_rules_idem, Group.normalize_node]

theorem Group.normalize_wf (g : Group) (h : g.wf) : g.normalize.wf := by
  refine ⟨h.1, h.2.1, ?_, ?_⟩
  · intro h0
    exact h.2.2.1 (List.map_eq_nil_iff.1 h0)
  · intro y hy
    obtain ⟨z, hz, rfl⟩ := List.mem_map.1 hy
    exact apply_rules_identifier (h.2.2.2 z hz)

/-! ### The parse of a well-formed generic type string -/

theorem type_char_commas {xs : List Str} (h : ∀ x ∈ xs, ∀ c ∈ x, type_char c) :
    ∀ c ∈ commas xs, type_char c := by
  intro c hc
  rcases mem_commas hc with h1 | ⟨x, hx, hcx⟩
  · exact Or.inr (Or.inr (Or.inr (Or.inl h1)))
  · exact h x hx c hcx

theorem type_char_ident {x : Str} (h : is_identifier x) : ∀ c ∈ x, type_char c :=
  fun c hc => Or.inl (h.2 c hc)

theorem Group.text_chars (g : Group) (h : g.wf) : ∀ c ∈ g.text, type_char c := by
  intro c hc
  unfold Group.text at hc
  rcases List.mem_append.1 hc with hc | hc
  · rw [g.token_eq] at hc
    rcases List.mem_append.1 hc with hc | hc
    · refine type_char_commas ?_ c hc
      intro x hx
      rcases List.mem_append.1 hx with hx | hx
      · exact type_char_ident (h.1 x hx)
      · rw [List.mem_singleton] at hx; exact hx ▸ type_char_ident h.2.1
    · rcases List.mem_cons.1 hc with hc | hc
      · exact Or.inr (Or.inl hc)
      · exact type_char_commas (fun y hy => type_char_ident (h.2.2.2 y hy)) c hc
  · rw [List.mem_singleton] at hc
    exact Or.inr (Or.inr (Or.inl hc))

theorem generic_text_chars (A : Str) (gs : List Group) (tr : List Str) (p : Bool)
    (hA : is_identifier A) (hgs : ∀ g ∈ gs, g.wf) (htr : ∀ x ∈ tr, is_identifier x) :
    ∀ c ∈ generic_text A gs tr p, type_char c := by
  intro c hc
  unfold generic_text at hc
  rcases List.mem_append.1 hc with hc | hc
  · exact type_char_ident hA c hc
  · rcases List.mem_cons.1 hc with hc | hc
    · exact Or.inr (Or.inl hc)
    · rcases List.mem_append.1 hc with hc | hc
      · refine type_char_commas ?_ c hc
        intro x hx
        rcases List.mem_append.1 hx with hx | hx
        · obtain ⟨g, hg, rfl⟩ := List.mem_map.1 hx
          exact g.text_chars (hgs g hg)
        · exact type_char_ident (htr x hx)
      · rcases List.mem_cons.1 hc with hc | hc
        · exact Or.inr (Or.inr (Or.inl hc))
        · cases p with
          | false => exact absurd hc (List.not_mem_nil _)
          | true =>
            rw [if_pos rfl, List.mem_singleton] at hc
            exact Or.inr (Or.inr (Or.inr (Or.inr hc)))

theorem type_char_facts {c : Char} (h : type_char c) : c ≠ ':' ∧ isspace c = false := by
  rcases h with h | h | h | h | h
  · exact ⟨(ident_char_ne h).2.2.2.2.1, (ident_char_ne h).2.2.2.2.2⟩
  all_goals (subst h; exact ⟨by decide, by decide⟩)

theorem not_bitfield_of_no_colon {t : Str} (h : ':' ∉ t) : ¬ kBitfieldTypePrefix <+: t := by
  intro hp
  exact h (hp.subset (by decide))

theorem remove_spaces_eq_self {t : Str} (h : ∀ c ∈ t, isspace c = false) : remove_spaces t = t := by
  unfold remove_spaces
  apply List.filter_eq_self.2
  intro c hc
  simp [h c hc]

theorem back_append_cons (s rest : Str) (c : Char) :
    back (s ++ c :: rest) = back (c :: rest) := by
  unfold back
  rw [List.getLastD_eq_getLast?, List.getLastD_eq_getLast?, List.getLast?_append]
  cases h : (c :: rest).getLast? with
  | none => simp at h
  | some x => rfl

theorem parse_generic (env : Env) (A : Str) (gs : List Group) (tr : List Str) (p : Bool)
    (name : Str) (sizes : List Nat)
    (hA : is_identifier A) (hgs : ∀ g ∈ gs, g.wf) (htr : ∀ x ∈ tr, is_identifier x)
    (hne : gs ≠ [] ∨ tr ≠ []) (hlen : (generic_text A gs tr p).length < npos) :
    parse env (generic_text A gs tr p) name sizes = .ok
      { m_type := generic_text A (gs.map Group.normalize) (tr.map apply_rules) p
        m_name := name
        m_array_sizes := sizes
        m_template_info := generic_node A gs tr p } := by
  have hchars := generic_text_chars A gs tr p hA hgs htr
  have hcolon : ':' ∉ generic_text A gs tr p := fun hm => (type_char_facts (hchars _ hm)).1 rfl
  have hlt : '<' ∈ generic_text A gs tr p := by unfold generic_text; simp
  have hgt : '>' ∈ generic_text A gs tr p := by unfold generic_text; simp
  rw [parse_of_not_bitfield env _ name sizes (not_bitfield_of_no_colon hcolon)]
  unfold parse_type
  have hnorm : normalize_type { m_name := name, m_array_sizes := sizes } (generic_text A gs tr p)
      = { m_type := generic_text A gs tr p, m_name := name, m_array_sizes := sizes } := by
    unfold normalize_type
    simp only [List.isEmpty_nil, if_true]
    rw [remove_spaces_eq_self (fun c hc => (type_char_facts (hchars c hc)).2),
      apply_rules_of_lt hlt]
  rw [hnorm]
  dsimp only
  have htem : field_info_t.is_templated
      { m_type := generic_text A gs tr p, m_name := name, m_array_sizes := sizes } = true := by
    unfold field_info_t.is_templated
    rw [Bool.and_eq_true]
    exact ⟨contains_eq_true.2 hlt, contains_eq_true.2 hgt⟩
  rw [if_pos htem]
  unfold parse_template
  dsimp only
  have hfind : find (generic_text A gs tr p) '<' = A.length := by
    unfold generic_text; exact find_append_cons _ _ '<' hA.plain.1
  have hAlt : A.length < (generic_text A gs tr p).length := by
    unfold generic_text; simp only [List.length_append, List.length_cons]; omega
  rw [hfind, size_mod_of_lt hlen hAlt (by decide), substr_ok _ 0 _ (Nat.zero_le _),
    substr_ok _ _ npos (by omega), take_npos _ hlen]
  have e1 : List.take A.length (List.drop 0 (generic_text A gs tr p)) = A := by
    unfold generic_text; simp
  have e2 : List.drop (A.length + 1) (generic_text A gs tr p)
      = args_text gs tr ++ '>' :: (if p then ['*'] else []) := by
    unfold generic_text; rw [List.drop_append]; rfl
  have e3 : decide (back (generic_text A gs tr p) = '*') = p := by
    unfold generic_text
    rw [back_append_cons, ← List.cons_append, back_append_cons]
    cases p <;> rfl
  rw [e1, e2, e3]
  simp only [bind, Except.bind]
  have hptr : (if p then ['*'] else [] : Str).length ≤ 1 := by cases p <;> simp
  have hp1 : '<' ∉ (if p then ['*'] else [] : Str) := by cases p <;> simp
  have hp2 : ',' ∉ (if p then ['*'] else [] : Str) := by cases p <;> simp
  have hlen2 : (args_text gs tr ++ '>' :: (if p then ['*'] else [])).length < npos := by
    rw [← e2]; simp only [List.length_drop]; omega
  rw [tokenize_groups _ hptr hp1 hp2 tr htr gs hgs hne _ [] (Nat.le_refl _) hlen2]
  dsimp only
  have htok : ∀ g ∈ gs, g.wf ∧ g.token.length < npos := by
    intro g hg
    refine ⟨hgs g hg, ?_⟩
    have h1 : g.text.length ≤ (args_text gs tr).length :=
      length_le_commas (List.mem_append_left _ (List.mem_map_of_mem _ hg))
    have h2 : g.token.length ≤ g.text.length := by
      unfold Group.text; simp
    have h3 : (args_text gs tr).length
        ≤ (args_text gs tr ++ '>' :: (if p then ['*'] else [])).length := by simp
    omega
  have hproc := process_tokens_groups A p tr htr gs htok [] rfl
  rw [List.nil_append] at hproc
  have hempty : template_info_t.empty.template_types = [] := rfl
  rw [hempty, List.nil_append, hproc]
  dsimp only
  rw [← generic_node_to_string]
  rfl

/-! ### Items and groups -/

theorem commas_cons_if (x : Str) (l : List Str) :
    commas (x :: l) = x ++ (if l = [] then [] else ',' :: commas l) := by
  cases l with
  | nil => simp [commas]
  | cons y ys => simp [commas]

theorem Group.text_cons_leaf (g : Group) (x : Str) :
    Group.text { g with leaves := x :: g.leaves } = x ++ ',' :: g.text := by
  unfold Group.text Group.token
  rw [List.cons_append, commas_cons _ _ (by simp)]
  simp

theorem group_items_spec (items : List Item) :
    commas (items.map Item.text) = args_text (group_items items).1 (group_items items).2 ∧
    (items = [] ↔ (group_items items).1 = [] ∧ (group_items items).2 = []) ∧
    ((∀ i ∈ items, i.wf) →
      (∀ g ∈ (group_items items).1, g.wf) ∧ ∀ x ∈ (group_items items).2, is_identifier x) := by
  induction items with
  | nil => simp [group_items, args_text, commas]
  | cons i rest ih =>
    obtain ⟨ih1, ih2, ih3⟩ := ih
    have hempty : rest.map Item.text = [] ↔
        (group_items rest).1.map Group.text ++ (group_items rest).2 = [] := by
      rw [List.map_eq_nil_iff, ih2, List.append_eq_nil, List.map_eq_nil_iff]
    cases i with
    | leaf x =>
      rw [List.map_cons, commas_cons_if, ih1]
      cases hg : group_items rest with
      | mk gs tr =>
        rw [hg] at ih1 ih2 ih3 hempty
        cases gs with
        | nil =>
          simp only [group_items, hg]
          refine ⟨?_, by simp, ?_⟩
          · unfold args_text
            simp only [List.map_nil, List.nil_append] at hempty ⊢
            rw [commas_cons_if]
            by_cases h0 : tr = []
            · rw [if_pos (hempty.2 h0), if_pos h0]; rfl
            · rw [if_neg (fun h => h0 (hempty.1 h)), if_neg h0]; rfl
          · intro hwf
            have := ih3 (fun j hj => hwf j (List.mem_cons_of_mem _ hj))
            refine ⟨by simp, ?_⟩
            intro y hy
            rcases List.mem_cons.1 hy with h | h
            · rw [h]; exact hwf (.leaf x) (List.mem_cons_self _ _)
            · exact this.2 y h
        | cons g gs =>
          simp only [group_items, hg]
          refine ⟨?_, by simp, ?_⟩
          · have hne : ¬ rest.map Item.text = [] := by
              intro h; have := hempty.1 h; simp at this
            rw [if_neg hne]
            unfold args_text
            simp only [List.map_cons, List.cons_append]
            rw [commas_cons_if, commas_cons_if, Group.text_cons_leaf]
            simp [Item.text]
          · intro hwf
            have := ih3 (fun j hj => hwf j (List.mem_cons_of_mem _ hj))
            have hx : is_identifier x := hwf (.leaf x) (List.mem_cons_self _ _)
            refine ⟨?_, this.2⟩
            intro g2 hg2
            rcases List.mem_cons.1 hg2 with h | h
            · have hgwf := this.1 g (List.mem_cons_self _ _)
              rw [h]
              refine ⟨?_, hgwf.2.1, hgwf.2.2.1, hgwf.2.2.2⟩
              intro y hy
              rcases List.mem_cons.1 hy with h2 | h2
              · rw [h2]; exact hx
              · exact hgwf.1 y h2
            · exact this.1 g2 (List.mem_cons_of_mem _ h)
    | nested b ys =>
      simp only [group_items]
      refine ⟨?_, by simp, ?_⟩
      · rw [List.map_cons, commas_cons_if, ih1]
        unfold args_text
        simp only [List.map_cons, List.cons_append]
        rw [commas_cons_if]
        have ht : Item.text (.nested b ys) = Group.text ⟨[], b, ys⟩ := by
          simp [Item.text, Group.text, Group.token, commas]
        rw [ht]
        by_cases h0 : rest.map Item.text = []
        · rw [if_pos h0, if_pos (hempty.1 h0)]
        · rw [if_neg h0, if_neg (fun h => h0 (hempty.2 h))]
      · intro hwf
        have := ih3 (fun j hj => hwf j (List.mem_cons_of_mem _ hj))
        have hn : Item.wf (.nested b ys) := hwf _ (List.mem_cons_self _ _)
        refine ⟨?_, this.2⟩
        intro g2 hg2
        rcases List.mem_cons.1 hg2 with h | h
        · rw [h]
          exact ⟨by simp, hn.1, hn.2.1, hn.2.2⟩
        · exact this.1 g2 h

theorem type_text_eq (A : Str) (items : List Item) (p : Bool) :
    type_text A items p = generic_text A (group_items items).1 (group_items items).2 p := by
  unfold type_text generic_text
  rw [(group_items_spec items).1]

/-! ### The round trip through the canonical type -/

theorem Group.normalize_idem (g : Group) : g.normalize.normalize = g.normalize := by
  unfold Group.normalize
  simp [List.map_map, Function.comp_def, apply_rules_idem]

theorem parse_items (env : Env) (A : Str) (items : List Item) (p : Bool) (name : Str)
    (sizes : List Nat) (hA : is_identifier A) (hwf : ∀ i ∈ items, i.wf) (hne : items ≠ [])
    (hlen : (type_text A items p).length < npos) :
    parse env (type_text A items p) name sizes = .ok
      { m_type := generic_text A ((group_items items).1.map Group.normalize)
          ((group_items items).2.map apply_rules) p
        m_name := name
        m_array_sizes := sizes
        m_template_info := generic_node A (group_items items).1 (group_items items).2 p } := by
  obtain ⟨-, h2, h3⟩ := group_items_spec items
  rw [type_text_eq] at hlen ⊢
  refine parse_generic env A _ _ p name sizes hA (h3 hwf).1 (h3 hwf).2 ?_ hlen
  by_contra hc
  rw [not_or, not_not, not_not] at hc
  exact hne (h2.2 hc)

/-- C6 (amended).  Round-trip law for well-formed generic type strings without pointer markers
on nested instantiations: for every string `A<item,...,item>` or `A<item,...,item>*` whose items
(at least one) are identifiers or one-level nested instantiations `B<y1,...,ym>` of
identifiers, the parse succeeds with a templated result d whose canonical type is the
serialisation of its template node, and parsing that canonical type as a fresh type string
succeeds and yields the same template node and the same canonical type (both strings being
shorter than `npos`, as every std::string is). -/
theorem generic_roundtrip (env : Env) (A : Str) (items : List Item) (p : Bool) (name : Str)
    (sizes : List Nat) (hA : is_identifier A) (hwf : ∀ i ∈ items, i.wf) (hne : items ≠ [])
    (hlen : (type_text A items p).length < npos) :
    ∃ d, parse env (type_text A items p) name sizes = .ok d ∧ d.is_templated = true ∧
      d.m_type = d.m_template_info.to_string ∧
      (d.m_type.length < npos →
        ∃ d2, parse env d.m_type name sizes = .ok d2 ∧
          d2.m_template_info = d.m_template_info ∧ d2.m_type = d.m_type) := by
  obtain ⟨-, h2, h3⟩ := group_items_spec items
  have hne2 : (group_items items).1 ≠ [] ∨ (group_items items).2 ≠ [] := by
    by_contra hc
    rw [not_or, not_not, not_not] at hc
    exact hne (h2.2 hc)
  refine ⟨_, parse_items env A items p name sizes hA hwf hne hlen, ?_, ?_, ?_⟩
  · unfold field_info_t.is_templated
    rw [Bool.and_eq_true]
    constructor <;> (apply contains_eq_true.2; unfold generic_text; simp)
  · exact (generic_node_to_string A _ _ p).symm
  · intro hlen2
    dsimp only at hlen2 ⊢
    have hgs : ∀ g ∈ (group_items items).1.map Group.normalize, g.wf := by
      intro g hg
      obtain ⟨g0, hg0, rfl⟩ := List.mem_map.1 hg
      exact g0.normalize_wf ((h3 hwf).1 g0 hg0)
    have htr : ∀ x ∈ (group_items items).2.map apply_rules, is_identifier x := by
      intro x hx
      obtain ⟨x0, hx0, rfl⟩ := List.mem_map.1 hx
      exact apply_rules_identifier ((h3 hwf).2 x0 hx0)
    have hne3 : (group_items items).1.map Group.normalize ≠ [] ∨
        (group_items items).2.map apply_rules ≠ [] := by
      rcases hne2 with h | h
      · exact Or.inl (fun h0 => h (List.map_eq_nil_iff.1 h0))
      · exact Or.inr (fun h0 => h (List.map_eq_nil_iff.1 h0))
    refine ⟨_, parse_generic env A _ _ p name sizes hA hgs htr hne3 hlen2, ?_, ?_⟩
    · exact generic_node_normalize A _ _ p
    · dsimp only
      simp only [List.map_map, Function.comp_def, Group.normalize_idem, apply_rules_idem]

/-- Witness of `generic_roundtrip`: the string "A<B<x,int32>,z>". -/
theorem generic_roundtrip_witness :
    ∃ d, parse sample_env "A<B<x,int32>,z>".toList "f".toList [] = .ok d ∧
      d.is_templated = true ∧ d.m_type = d.m_template_info.to_string ∧
      (d.m_type.length < npos →
        ∃ d2, parse sample_env d.m_type "f".toList [] = .ok d2 ∧
          d2.m_template_info = d.m_template_info ∧ d2.m_type = d.m_type) :=
  generic_roundtrip sample_env "A".toList
    [.nested "B".toList ["x".toList, "int32".toList], .leaf "z".toList] false "f".toList []
    (by decide) (by
      intro i hi
      simp only [List.mem_cons, List.mem_singleton, List.not_mem_nil, or_false] at hi
      rcases hi with rfl | rfl
      · exact ⟨by decide, by decide, by decide⟩
      · exact (by decide : is_identifier "z".toList)) (List.cons_ne_nil _ _) (by decide)

/-- C6, counterexamples: the parse of "A<,>" succeeds with a templated result that has one
argument (an empty leaf), and the parse of its canonical type "A<>" has none; the parse of
"A<B<C>*,D>" succeeds with three arguments, and the parse of its canonical type
"A<B<C>*,,D>" has four. -/
theorem roundtrip_fails :
    (∀ env : Env, ∃ d d2, parse env "A<,>".toList [] [] = .ok d ∧ d.is_templated = true ∧
      d.m_type = d.m_template_info.to_string ∧
      parse env d.m_type [] [] = .ok d2 ∧
      d.m_template_info.template_types.length = 1 ∧
      d2.m_template_info.template_types.length = 0) ∧
    (∀ env : Env, ∃ d d2, parse env "A<B<C>*,D>".toList [] [] = .ok d ∧ d.is_templated = true ∧
      d.m_type = d.m_template_info.to_string ∧
      parse env d.m_type [] [] = .ok d2 ∧
      d.m_template_info.template_types.length = 3 ∧
      d2.m_template_info.template_types.length = 4) :=
  ⟨fun _ => ⟨_, _, rfl, rfl, rfl, rfl, rfl, rfl⟩, fun _ => ⟨_, _, rfl, rfl, rfl, rfl, rfl, rfl⟩⟩

/-! ### Aliases, nested instantiations and unbalanced brackets -/

/-- C1.  For every pair (a, b) of `kTypeNameToCpp`, every field name and every list of array
sizes, the string-path parse of a succeeds and returns a descriptor whose `m_type` is b, whose
bitfield width is 0 and whose template node is empty. -/
theorem parse_alias (env : Env) (a b name : Str) (sizes : List Nat)
    (h : (a, b) ∈ kTypeNameToCpp) :
    ∃ d, parse env a name sizes = .ok d ∧ d.m_type = b ∧ d.m_bitfield_size = 0 ∧
      d.m_template_info = template_info_t.empty := by
  simp only [kTypeNameToCpp, List.mem_cons, Prod.mk.injEq, List.mem_singleton,
    List.not_mem_nil, or_false] at h
  rcases h with h | h | h | h | h | h | h | h | h | h <;>
    (obtain ⟨rfl, rfl⟩ := h; exact ⟨_, rfl, rfl, rfl, rfl⟩)

/-- Witness of `parse_alias`: the pair ("int32", "int32_t"). -/
theorem parse_alias_witness :
    ∃ d, parse sample_env "int32".toList "x".toList [] = .ok d ∧ d.m_type = "int32_t".toList ∧
      d.m_bitfield_size = 0 ∧ d.m_template_info = template_info_t.empty :=
  parse_alias sample_env "int32".toList "int32_t".toList "x".toList [] (by decide)

/-- C2.  For all non-empty identifiers A, B, C, the string-path parse of "A<B<C>>" returns a
descriptor whose template node is A (not a pointer) with exactly one argument, the nested node
B (not a pointer) with exactly one argument, the leaf C passed through `kTypeNameToCpp`; and
whose canonical type is "A<B<C'>>" for that leaf C' (the string being shorter than `npos`, as
every std::string is). -/
theorem parse_nested_instantiation (env : Env) (A B C name : Str) (sizes : List Nat)
    (hA : is_identifier A) (hB : is_identifier B) (hC : is_identifier C)
    (hlen : (A ++ "<".toList ++ B ++ "<".toList ++ C ++ ">>".toList).length < npos) :
    ∃ d, parse env (A ++ "<".toList ++ B ++ "<".toList ++ C ++ ">>".toList) name sizes = .ok d ∧
      d.m_template_info =
        .mk A [.info (.mk B [.str (apply_rules C)] false)] false ∧
      d.m_type = A ++ "<".toList ++ B ++ "<".toList ++ apply_rules C ++ ">>".toList := by
  have htext : A ++ "<".toList ++ B ++ "<".toList ++ C ++ ">>".toList
      = type_text A [.nested B [C]] false := by
    simp [type_text, Item.text, commas]
  rw [htext] at hlen ⊢
  refine ⟨_, parse_items env A _ false name sizes hA ?_ (List.cons_ne_nil _ _) hlen, ?_, ?_⟩
  · intro i hi
    rw [List.mem_singleton] at hi
    subst hi
    refine ⟨hB, List.cons_ne_nil _ _, ?_⟩
    intro y hy
    rw [List.mem_singleton] at hy
    exact hy ▸ hC
  · simp [group_items, generic_node, Group.node, commas]
  · simp [group_items, generic_text, args_text, Group.text, Group.token, Group.normalize, commas]

/-- Witness of `parse_nested_instantiation`: "CUtlVector<CHandle<CBaseEntity>>". -/
theorem parse_nested_instantiation_witness :
    ∃ d, parse sample_env "CUtlVector<CHandle<CBaseEntity>>".toList "x".toList [] = .ok d ∧
      d.m_template_info =
        .mk "CUtlVector".toList
          [.info (.mk "CHandle".toList [.str "CBaseEntity".toList] false)] false ∧
      d.m_type = "CUtlVector<CHandle<CBaseEntity>>".toList :=
  parse_nested_instantiation sample_env "CUtlVector".toList "CHandle".toList
    "CBaseEntity".toList "x".toList [] (by decide) (by decide) (by decide) (by decide)

/-- C5, counterexample: "A<B<C>" does not begin with "bitfield:", and its string-path parse
raises `std::out_of_range` (in `substr(find('>') + 2)` of the tokenizer) instead of returning
a descriptor. -/
theorem parse_unbalanced_raises :
    (¬ kBitfieldTypePrefix <+: "A<B<C>".toList) ∧
    ∀ env : Env, parse env "A<B<C>".toList "x".toList [] = .error .out_of_range :=
  ⟨by decide, fun _ => rfl⟩

/-- C7, the code at the failing input: in "A<int32,B<int32>>" the alias `int32` that precedes
the nested instantiation is not replaced; it becomes part of the name of the nested node, and
the canonical type is "A<int32,B<int32_t>>", not "A<int32_t,B<int32_t>>". -/
theorem parse_alias_before_nested (env : Env) :
    ∃ d, parse env "A<int32,B<int32>>".toList "x".toList [] = .ok d ∧
      d.m_type = "A<int32,B<int32_t>>".toList ∧
      d.m_type ≠ "A<int32_t,B<int32_t>>".toList ∧
      d.m_template_info =
        .mk "A".toList [.info (.mk "int32,B".toList [.str "int32_t".toList] false)] false :=
  ⟨_, rfl, rfl, by decide, rfl⟩

/-! ### The enum path -/

/-- C9.  For every field-type tag, every field name and every array length n, the enum-path
parse returns a descriptor whose `m_array_sizes` is [n] when n > 1 and empty when n is 0 or 1,
so that `is_array()` holds exactly when n > 1. -/
theorem parse_datamap_array_sizes (tag : fieldtype_t) (name : Str) (n : Nat) :
    (parse_datamap tag name n).m_array_sizes = (if n > 1 then [n] else []) ∧
    ((parse_datamap tag name n).is_array = true ↔ n > 1) := by
  have key : (parse_datamap tag name n).m_array_sizes = (if n > 1 then [n] else []) := by
    unfold parse_datamap parse_type_datamap
    by_cases hn : n > 1 <;> simp only [hn, if_true, if_false] <;> split <;> rfl
  refine ⟨key, ?_⟩
  unfold field_info_t.is_array
  rw [key]
  by_cases hn : n > 1 <;> simp [hn]

theorem parse_datamap_fields (tag : fieldtype_t) (name : Str) (n : Nat) :
    (parse_datamap tag name n).m_type =
      (match kDatamapToCpp.find? (fun rule => decide (tag = rule.1)) with
        | some rule => rule.2
        | none => []) ∧
    (parse_datamap tag name n).m_template_info = template_info_t.empty ∧
    (parse_datamap tag name n).m_bitfield_size = 0 := by
  unfold parse_datamap parse_type_datamap
  by_cases hn : n > 1 <;> simp only [hn, if_true, if_false] <;> split <;> simp_all

/-- C10.  For every field-type tag the enum-path parse returns a descriptor (the function is
total): its `m_type` is the string paired with the tag in `kDatamapToCpp` when the tag occurs
there and the empty string otherwise; the string is not parsed again, so the template node
stays empty and the bitfield width stays 0, also for FIELD_EHANDLE ("CHandle<CBaseEntity>"),
FIELD_HMODEL and FIELD_HMATERIAL, for which `is_templated()` is nevertheless true. -/
theorem parse_datamap_lookup (tag : fieldtype_t) (name : Str) (n : Nat) :
    (∀ s, (tag, s) ∈ kDatamapToCpp → (parse_datamap tag name n).m_type = s) ∧
    ((∀ s, (tag, s) ∉ kDatamapToCpp) → (parse_datamap tag name n).m_type = []) ∧
    (parse_datamap tag name n).m_template_info = template_info_t.empty ∧
    (parse_datamap tag name n).m_bitfield_size = 0 ∧
    (parse_datamap fieldtype_t.FIELD_EHANDLE name n).m_type = "CHandle<CBaseEntity>".toList ∧
    (parse_datamap fieldtype_t.FIELD_EHANDLE name n).is_templated = true ∧
    (parse_datamap fieldtype_t.FIELD_HMODEL name n).is_templated = true ∧
    (parse_datamap fieldtype_t.FIELD_HMATERIAL name n).is_templated = true := by
  have hf := parse_datamap_fields
  refine ⟨?_, ?_, (hf tag name n).2.1, (hf tag name n).2.2, ?_, ?_, ?_, ?_⟩
  · intro s hs
    rw [(hf tag name n).1]
    cases tag <;> simp [kDatamapToCpp] at hs <;> (subst hs; rfl)
  · intro h
    rw [(hf tag name n).1]
    split
    · rename_i rule heq
      have hmem := List.mem_of_find?_eq_some heq
      have hkey : tag = rule.1 := by simpa using List.find?_some heq
      exact absurd (by rw [hkey]; exact hmem) (h rule.2)
    · rfl
  · rw [(hf _ name n).1]; rfl
  · unfold field_info_t.is_templated; rw [(hf _ name n).1]; rfl
  · unfold field_info_t.is_templated; rw [(hf _ name n).1]; rfl
  · unfold field_info_t.is_templated; rw [(hf _ name n).1]; rfl

/-! ### The formatted name and the total array size -/

theorem foldl_append_eq (g : Nat → Str) (l : List Nat) : ∀ acc : Str,
    l.foldl (fun result size => result ++ g size) acc = acc ++ (l.map g).flatten := by
  induction l with
  | nil => intro acc; simp
  | cons x xs ih => intro acc; simp [ih]

/-- C11.  For every descriptor, `formatted_name()` is the field name followed by the declarator
suffix: ": " and the decimal bitfield width when that width is not zero (also when array
dimensions are present); otherwise the texts "[d]" of the array dimensions in stored order;
otherwise nothing. -/
theorem formatted_name_eq (f : field_info_t) :
    f.formatted_name = f.m_name ++ declarator_suffix f := by
  unfold field_info_t.formatted_name declarator_suffix field_info_t.is_bitfield
    field_info_t.is_array field_info_t.formatted_array_sizes field_info_t.format_size
  by_cases hb : f.m_bitfield_size = 0
  · by_cases ha : f.m_array_sizes = []
    · simp [hb, ha]
    · have hne : f.m_array_sizes.isEmpty = false := by
        cases h : f.m_array_sizes with
        | nil => exact absurd h ha
        | cons x xs => rfl
      simp only [hb, ne_eq, not_true_eq_false, decide_False, Bool.false_eq_true, if_false, hne,
        Bool.not_false, if_true, ha, not_false_eq_true]
      rw [foldl_append_eq (fun size => '[' :: Nat.toDigits 10 size ++ [']'])]
      simp
  · simp [hb]

/-- C12, the code at the failing inputs: with the dimensions [5, 0, 3], whose product is 0,
`total_array_size()` is 3, and with [0, 5] it is 5: a zero result makes the loop start again
from the next dimension. -/
theorem total_array_size_zero_dimension :
    (0 ∈ [5, 0, 3] ∧ [5, 0, 3].prod = 0 ∧
      ({ m_array_sizes := [5, 0, 3] } : field_info_t).total_array_size = 3) ∧
    (0 ∈ [0, 5] ∧ ({ m_array_sizes := [0, 5] } : field_info_t).total_array_size = 5) := by
  decide

/-! ### Leaves before a nested instantiation, deeper nesting, pointer markers -/

/-- C13, the code at the failing input: for "A<x,B<y>>" the root node has one argument, a
nested node named "x,B" with the leaf y, and not the two arguments [leaf x, node B[y]]; for
"A<B<x,y>,z>", where the nested instantiation comes first, the root arguments are
[node B[x, y], leaf z]. -/
theorem parse_leaf_before_nested (env : Env) :
    (∃ d, parse env "A<x,B<y>>".toList "f".toList [] = .ok d ∧
      d.m_template_info =
        .mk "A".toList [.info (.mk "x,B".toList [.str "y".toList] false)] false) ∧
    (∃ d, parse env "A<B<x,y>,z>".toList "f".toList [] = .ok d ∧
      d.m_template_info =
        .mk "A".toList
          [.info (.mk "B".toList [.str "x".toList, .str "y".toList] false),
           .str "z".toList] false) :=
  ⟨⟨_, rfl, rfl⟩, ⟨_, rfl, rfl⟩⟩

/-- C14, counterexample: for "A<B<C<D>>>" the node B has the single leaf argument "C<D", not
a node C, and the canonical type is "A<B<C<D>>", which is not the input. -/
theorem parse_three_levels :
    (∀ env : Env, ∃ d, parse env "A<B<C<D>>>".toList "f".toList [] = .ok d ∧
      d.m_template_info =
        .mk "A".toList [.info (.mk "B".toList [.str "C<D".toList] false)] false ∧
      d.m_type = "A<B<C<D>>".toList) ∧
    "A<B<C<D>>".toList ≠ "A<B<C<D>>>".toList :=
  ⟨fun _ => ⟨_, rfl, rfl, rfl⟩, by decide⟩

/-- C15, the code at the failing inputs: "A<B<C>*>" gives the root arguments [node B*[C]] and
the canonical type "A<B<C>*>"; for "A<B<C>*,D>" the root arguments are
[node B*[C], leaf "", leaf D] and the canonical type is "A<B<C>*,,D>"; for "A<B<C>*>*" the
root is a pointer with the arguments [node B*[C], leaf ""] and the canonical type is
"A<B<C>*,>*". -/
theorem parse_nested_pointer (env : Env) :
    (∃ d, parse env "A<B<C>*>".toList "f".toList [] = .ok d ∧
      d.m_template_info =
        .mk "A".toList [.info (.mk "B".toList [.str "C".toList] true)] false ∧
      d.m_type = "A<B<C>*>".toList) ∧
    (∃ d, parse env "A<B<C>*,D>".toList "f".toList [] = .ok d ∧
      d.m_template_info =
        .mk "A".toList
          [.info (.mk "B".toList [.str "C".toList] true), .str [], .str "D".toList] false ∧
      d.m_type = "A<B<C>*,,D>".toList) ∧
    (∃ d, parse env "A<B<C>*>*".toList "f".toList [] = .ok d ∧
      d.m_template_info =
        .mk "A".toList [.info (.mk "B".toList [.str "C".toList] true), .str []] true ∧
      d.m_type = "A<B<C>*,>*".toList) :=
  ⟨⟨_, rfl, rfl, rfl⟩, ⟨_, rfl, rfl, rfl⟩, ⟨_, rfl, rfl, rfl⟩⟩

/-! ### What the loops of the template parser push -/

theorem comma_loop_spec (fuel : Nat) : ∀ (t : Str) (types : List template_type_t)
    (r : List template_type_t × Str), comma_loop fuel t types = .ok r →
    ∃ xs : List Str, r.1 = types ++ xs.map template_type_t.str ∧
      (∀ x ∈ xs, ∀ c ∈ x, c ∈ t) ∧ ∀ c ∈ r.2, c ∈ t := by
  induction fuel with
  | zero =>
    intro t types r h
    injection h with h
    subst h
    exact ⟨[], by simp, by simp, fun c hc => hc⟩
  | succ fuel ih =>
    intro t types r h
    unfold comma_loop at h
    split at h
    · rw [substr_ok t 0 _ (Nat.zero_le _), substr_ok t _ npos (find_succ_mod_le t ',')] at h
      obtain ⟨xs, h1, h2, h3⟩ := ih _ _ r h
      have hsub : ∀ c ∈ List.take npos (List.drop ((find t ',' + 1) % SIZE_MOD) t), c ∈ t :=
        fun c hc => List.mem_of_mem_drop (List.mem_of_mem_take hc)
      refine ⟨List.take (find t ',') (List.drop 0 t) :: xs, ?_, ?_, ?_⟩
      · rw [h1]; simp
      · intro x hx c hc
        rcases List.mem_cons.1 hx with hx | hx
        · subst hx
          exact List.mem_of_mem_drop (List.mem_of_mem_take hc)
        · exact hsub c (h2 x hx c hc)
      · exact fun c hc => hsub c (h3 c hc)
    · injection h with h
      subst h
      exact ⟨[], by simp, by simp, fun c hc => hc⟩

theorem push_types_spec (info r : template_info_t) (tok : Str)
    (h : push_types info tok = .ok r) :
    ∃ ys : List Str, ys ≠ [] ∧ (∀ y ∈ ys, ∀ c ∈ y, c ∈ tok) ∧
      r = .mk info.type_name
        (replace_types (info.template_types ++ ys.map template_type_t.str)) info.is_pointer := by
  unfold push_types at h
  cases hc : comma_loop tok.length tok info.template_types with
  | error e => rw [hc] at h; injection h
  | ok pr =>
    obtain ⟨xs, h1, h2, h3⟩ := comma_loop_spec _ _ _ pr hc
    rw [hc] at h
    simp only [bind, Except.bind] at h
    injection h with h
    refine ⟨xs ++ [pr.2], by simp, ?_, ?_⟩
    · intro y hy c hcy
      rcases List.mem_append.1 hy with hy | hy
      · exact h2 y hy c hcy
      · rw [List.mem_singleton] at hy
        exact h3 c (hy ▸ hcy)
    · rw [← h, h1]
      simp

theorem process_token_spec (root r : template_info_t) (tok : Str)
    (h : process_token root tok = .ok r) :
    (∃ ys : List Str, ys ≠ [] ∧ (∀ y ∈ ys, ∀ c ∈ y, c ∈ tok) ∧
      r = .mk root.type_name
        (replace_types (root.template_types ++ ys.map template_type_t.str)) root.is_pointer) ∨
    (∃ (n : Str) (ys : List Str) (p : Bool), ys ≠ [] ∧ (∀ c ∈ n, c ∈ tok) ∧
      (∀ y ∈ ys, ∀ c ∈ y, c ∈ tok) ∧
      r = .mk root.type_name
        (root.template_types ++
          [.info (.mk n (replace_types (ys.map template_type_t.str)) p)]) root.is_pointer) := by
  unfold process_token at h
  split at h
  · right
    have key : ∀ (tok2 : Str) (p : Bool), (∀ c ∈ tok2, c ∈ tok) →
        (do
          let type_name ← substr tok2 0 (find tok2 '<')
          let template_token ← substr tok2 ((find tok2 '<' + 1) % SIZE_MOD) npos
          let node ← push_types (.mk type_name [] p) template_token
          Except.ok (template_info_t.mk root.type_name
            (root.template_types ++ [template_type_t.info node]) root.is_pointer)) = .ok r →
        ∃ (n : Str) (ys : List Str) (p : Bool), ys ≠ [] ∧ (∀ c ∈ n, c ∈ tok) ∧
          (∀ y ∈ ys, ∀ c ∈ y, c ∈ tok) ∧
          r = .mk root.type_name
            (root.template_types ++
              [.info (.mk n (replace_types (ys.map template_type_t.str)) p)])
            root.is_pointer := by
      intro tok2 p hsub h2
      rw [substr_ok tok2 0 _ (Nat.zero_le _), substr_ok tok2 _ npos (find_succ_mod_le tok2 '<')]
        at h2
      simp only [bind, Except.bind] at h2
      split at h2
      · injection h2
      · rename_i node hnode
        obtain ⟨ys, hne, hys, hr⟩ := push_types_spec _ node _ hnode
        injection h2 with h2
        refine ⟨List.take (find tok2 '<') (List.drop 0 tok2), ys, p, hne, ?_, ?_, ?_⟩
        · exact fun c hc => hsub c (List.mem_of_mem_drop (List.mem_of_mem_take hc))
        · exact fun y hy c hc =>
            hsub c (List.mem_of_mem_drop (List.mem_of_mem_take (hys y hy c hc)))
        · rw [← h2, hr]
          rfl
    by_cases hp : char_at tok 0 = '*'
    · simp only [hp, decide_True, if_true] at h
      cases hs : substr tok 1 npos with
      | error e => rw [hs] at h; injection h
      | ok tok2 =>
        rw [hs] at h
        have hsub : ∀ c ∈ tok2, c ∈ tok := by
          unfold substr at hs
          split at hs
          · injection hs
          · injection hs with hs
            subst hs
            exact fun c hc => List.mem_of_mem_drop (List.mem_of_mem_take hc)
        exact key tok2 true hsub h
    · simp only [hp, decide_False, Bool.false_eq_true, if_false] at h
      exact key tok false (fun c hc => hc) h
  · left
    obtain ⟨ys, hne, hys, hr⟩ := push_types_spec _ _ _ h
    exact ⟨ys, hne, hys, hr⟩

/-! ### The shape of the template tree -/

theorem replace_types_of_normal (Q : Char → Prop) (ts : List template_type_t)
    (h : ∀ t ∈ ts, normal_arg Q t) : replace_types ts = ts := by
  unfold replace_types
  conv_rhs => rw [← List.map_id ts]
  apply List.map_congr_left
  intro t ht
  rcases h t ht with ⟨x, hx, -⟩ | ⟨n, ys, p, hx, -⟩
  · subst hx
    simp only [apply_rules_idem, id]
  · subst hx
    rfl

theorem normal_leaves_of_strs (Q : Char → Prop) (ys : List Str)
    (h : ∀ y ∈ ys, ∀ c ∈ y, Q c) :
    ∀ t ∈ replace_types (ys.map template_type_t.str), normal_leaf Q t := by
  intro t ht
  rw [replace_types_strs] at ht
  obtain ⟨y, hy, rfl⟩ := List.mem_map.1 ht
  exact ⟨y, rfl, h y hy⟩

theorem process_token_inv (Q : Char → Prop) (root r : template_info_t) (tok : Str)
    (hQ : ∀ c ∈ tok, Q c) (hinv : ∀ t ∈ root.template_types, normal_arg Q t)
    (h : process_token root tok = .ok r) :
    r.type_name = root.type_name ∧ r.is_pointer = root.is_pointer ∧
      (∀ t ∈ r.template_types, normal_arg Q t) ∧
      root.template_types.length < r.template_types.length := by
  rcases process_token_spec root r tok h with ⟨ys, hne, hys, hr⟩ | ⟨n, ys, p, hne, hn, hys, hr⟩
  · have hleaves := normal_leaves_of_strs Q ys (fun y hy c hc => hQ c (hys y hy c hc))
    have hrep : replace_types (root.template_types ++ ys.map template_type_t.str)
        = root.template_types ++ replace_types (ys.map template_type_t.str) := by
      rw [replace_types_append, replace_types_of_normal Q _ hinv]
    rw [hrep] at hr
    subst hr
    refine ⟨rfl, rfl, ?_, ?_⟩
    · intro t ht
      rcases List.mem_append.1 ht with ht | ht
      · exact hinv t ht
      · exact Or.inl (hleaves t ht)
    · show _ < (root.template_types ++ replace_types (ys.map template_type_t.str)).length
      rw [replace_types_strs, List.length_append, List.length_map]
      have : 0 < ys.length := List.length_pos.2 hne
      omega
  · subst hr
    refine ⟨rfl, rfl, ?_, ?_⟩
    · intro t ht
      rcases List.mem_append.1 ht with ht | ht
      · exact hinv t ht
      · rw [List.mem_singleton] at ht
        subst ht
        refine Or.inr ⟨n, _, p, rfl, ?_, fun c hc => hQ c (hn c hc),
          normal_leaves_of_strs Q ys (fun y hy c hc => hQ c (hys y hy c hc))⟩
        rw [replace_types_strs]
        exact fun h0 => hne (List.map_eq_nil_iff.1 h0)
    · show _ < (root.template_types ++ [_]).length
      simp

theorem process_tokens_inv (Q : Char → Prop) (toks : List Str) :
    ∀ (root r : template_info_t), (∀ tok ∈ toks, ∀ c ∈ tok, Q c) →
      (∀ t ∈ root.template_types, normal_arg Q t) → process_tokens toks root = .ok r →
      r.type_name = root.type_name ∧ r.is_pointer = root.is_pointer ∧
        (∀ t ∈ r.template_types, normal_arg Q t) ∧
        root.template_types.length + toks.length ≤ r.template_types.length := by
  induction toks with
  | nil =>
    intro root r _ hinv h
    injection h with h
    subst h
    exact ⟨rfl, rfl, hinv, by simp⟩
  | cons tok toks ih =>
    intro root r hQ hinv h
    unfold process_tokens at h
    cases h1 : process_token root tok with
    | error e => rw [h1] at h; injection h
    | ok r1 =>
      rw [h1] at h
      obtain ⟨a1, a2, a3, a4⟩ :=
        process_token_inv Q root r1 tok (hQ tok (List.mem_cons_self _ _)) hinv h1
      obtain ⟨b1, b2, b3, b4⟩ :=
        ih r1 r (fun t ht => hQ t (List.mem_cons_of_mem _ ht)) a3 h
      refine ⟨b1.trans a1, b2.trans a2, b3, ?_⟩
      simp only [List.length_cons]
      omega

/-! ### The characters and the number of the tokens -/

theorem substr_subset {s r : Str} {pos n : Nat} (h : substr s pos n = .ok r) :
    ∀ c ∈ r, c ∈ s := by
  unfold substr at h
  split at h
  · injection h
  · injection h with h
    subst h
    exact fun c hc => List.mem_of_mem_drop (List.mem_of_mem_take hc)

theorem tokenize_step_chars (t tok rest : Str)
    (h : tokenize_step t = .ok (some (tok, rest))) :
    (∀ c ∈ tok, c ∈ t ∨ c = '*') ∧ ∀ c ∈ rest, c ∈ t := by
  unfold tokenize_step at h
  split at h
  · dsimp only at h
    cases h1 : substr t 0 (find t '>') with
    | error e => rw [h1] at h; injection h
    | ok tk =>
      cases h2 : substr t ((find t '>' + 2) % SIZE_MOD) npos with
      | error e => rw [h1, h2] at h; injection h
      | ok rs =>
        rw [h1, h2] at h
        simp only [bind, Except.bind] at h
        injection h with h
        injection h with h
        obtain ⟨ht, hr⟩ := Prod.mk.inj h
        subst hr
        refine ⟨?_, substr_subset h2⟩
        intro c hc
        rw [← ht] at hc
        split at hc
        · rcases List.mem_cons.1 hc with hc | hc
          · exact Or.inr hc
          · exact Or.inl (substr_subset h1 c hc)
        · exact Or.inl (substr_subset h1 c hc)
  · have key : ∀ ch : Char,
        (do
          let token ← substr t 0 (find t ch)
          let rest ← substr t ((find t ch + 1) % SIZE_MOD) npos
          Except.ok (some (token, rest))) = .ok (some (tok, rest)) →
        (∀ c ∈ tok, c ∈ t ∨ c = '*') ∧ ∀ c ∈ rest, c ∈ t := by
      intro ch h
      cases h1 : substr t 0 (find t ch) with
      | error e => rw [h1] at h; injection h
      | ok tk =>
        cases h2 : substr t ((find t ch + 1) % SIZE_MOD) npos with
        | error e => rw [h1, h2] at h; injection h
        | ok rs =>
          rw [h1, h2] at h
          simp only [bind, Except.bind] at h
          injection h with h
          injection h with h
          obtain ⟨ht, hr⟩ := Prod.mk.inj h
          subst ht; subst hr
          exact ⟨fun c hc => Or.inl (substr_subset h1 c hc), substr_subset h2⟩
    split at h
    · exact key ',' h
    · split at h
      · exact key '>' h
      · injection h with h; injection h

theorem tokenize_loop_chars (Q : Char → Prop) (hstar : Q '*') (fuel : Nat) :
    ∀ (t : Str) (acc toks : List Str), (∀ c ∈ t, Q c) → (∀ tok ∈ acc, ∀ c ∈ tok, Q c) →
      tokenize_loop fuel t acc = .ok toks →
      (∀ tok ∈ toks, ∀ c ∈ tok, Q c) ∧ acc.length ≤ toks.length := by
  induction fuel with
  | zero =>
    intro t acc toks _ hacc h
    injection h with h
    subst h
    exact ⟨hacc, Nat.le_refl _⟩
  | succ fuel ih =>
    intro t acc toks ht hacc h
    unfold tokenize_loop at h
    split at h
    · split at h
      · injection h
      · injection h with h
        subst h
        exact ⟨hacc, Nat.le_refl _⟩
      · rename_i tok rest heq
        obtain ⟨h1, h2⟩ := tokenize_step_chars t tok rest heq
        have hacc2 : ∀ tk ∈ acc ++ [tok], ∀ c ∈ tk, Q c := by
          intro tk htk c hc
          rcases List.mem_append.1 htk with htk | htk
          · exact hacc tk htk c hc
          · rw [List.mem_singleton] at htk
            subst htk
            rcases h1 c hc with hc | hc
            · exact ht c hc
            · exact hc ▸ hstar
        obtain ⟨r1, r2⟩ := ih rest _ toks (fun c hc => ht c (h2 c hc)) hacc2 h
        refine ⟨r1, ?_⟩
        simp only [List.length_append, List.length_singleton] at r2
        omega
    · injection h with h
      subst h
      exact ⟨hacc, Nat.le_refl _⟩

theorem tokenize_step_some (t : Str) (r : Option (Str × Str))
    (hc : '<' ∈ t ∨ ',' ∈ t ∨ '>' ∈ t) (h : tokenize_step t = .ok r) : r ≠ none := by
  intro hr
  subst hr
  unfold tokenize_step at h
  split at h
  · dsimp only at h
    cases h1 : substr t 0 (find t '>') with
    | error e => rw [h1] at h; injection h
    | ok tk =>
      cases h2 : substr t ((find t '>' + 2) % SIZE_MOD) npos with
      | error e => rw [h1, h2] at h; injection h
      | ok rs =>
        rw [h1, h2] at h
        simp only [bind, Except.bind] at h
        injection h with h
        injection h
  · rename_i hlt
    have key : ∀ ch : Char,
        (do
          let token ← substr t 0 (find t ch)
          let rest ← substr t ((find t ch + 1) % SIZE_MOD) npos
          Except.ok (some (token, rest))) ≠ .ok (none : Option (Str × Str)) := by
      intro ch h
      cases h1 : substr t 0 (find t ch) with
      | error e => rw [h1] at h; injection h
      | ok tk =>
        cases h2 : substr t ((find t ch + 1) % SIZE_MOD) npos with
        | error e => rw [h1, h2] at h; injection h
        | ok rs =>
          rw [h1, h2] at h
          simp only [bind, Except.bind] at h
          injection h with h
          injection h
    split at h
    · exact key ',' h
    · rename_i hcm
      split at h
      · exact key '>' h
      · rename_i hgt
        rcases hc with hc | hc | hc
        · exact hlt (contains_eq_true.2 hc)
        · exact hcm (contains_eq_true.2 hc)
        · exact hgt (contains_eq_true.2 hc)

theorem tokenize_loop_first (fuel : Nat) (t : Str) (acc toks : List Str)
    (hlen : 1 < t.length) (hc : '<' ∈ t ∨ ',' ∈ t ∨ '>' ∈ t)
    (h : tokenize_loop (fuel + 1) t acc = .ok toks) : acc.length < toks.length := by
  unfold tokenize_loop at h
  rw [if_pos hlen] at h
  split at h
  · injection h
  · rename_i heq
    exact absurd rfl (tokenize_step_some t none hc heq)
  · rename_i tok rest heq
    have := (tokenize_loop_chars (fun _ => True) trivial fuel rest _ toks
      (fun _ _ => trivial) (fun _ _ _ _ => trivial) h).2
    simp only [List.length_append, List.length_singleton] at this
    omega

/-! ### The descriptor that a successful parse returns -/

theorem parse_bitfield_template (env : Env) (r r2 : field_info_t) (t : Str)
    (h : parse_bitfield env r t = .ok r2) : r2.m_template_info = r.m_template_info := by
  unfold parse_bitfield at h
  split at h
  · injection h with h; rw [← h]
  · cases h1 : substr t 0 kBitfieldTypePrefix.length with
    | error e => rw [h1] at h; injection h
    | ok s =>
      rw [h1] at h
      simp only [bind, Except.bind] at h
      split at h
      · injection h with h; rw [← h]
      · cases h2 : substr t kBitfieldTypePrefix.length (t.length - kBitfieldTypePrefix.length) with
        | error e => rw [h2] at h; injection h
        | ok s2 =>
          rw [h2] at h
          dsimp only at h
          cases h3 : wrapped_atoi env s2 with
          | error e => rw [h3] at h; injection h
          | ok v =>
            rw [h3] at h
            injection h with h
            rw [← h]

theorem normalize_type_template (r : field_info_t) (t : Str) :
    (normalize_type r t).m_template_info = r.m_template_info := by
  unfold normalize_type
  by_cases h : r.m_type.isEmpty = true <;> simp [h]

theorem to_string_templated (root : template_info_t) :
    contains root.to_string '<' = true ∧ contains root.to_string '>' = true := by
  cases root with
  | mk n ts p =>
    rw [to_string_eq]
    constructor <;> (apply contains_eq_true.2; simp)

theorem parse_template_spec (Q : Char → Prop) (hstar : Q '*') (r d : field_info_t)
    (hQ : ∀ c ∈ r.m_type, Q c) (hr : r.m_template_info.template_types = [])
    (h : parse_template r = .ok d) :
    ∃ (tt : Str) (toks : List Str),
      substr r.m_type ((find r.m_type '<' + 1) % SIZE_MOD) npos = .ok tt ∧
      tokenize_loop tt.length tt [] = .ok toks ∧
      d.m_type = d.m_template_info.to_string ∧
      d.m_template_info.is_pointer = decide (back r.m_type = '*') ∧
      (∀ c ∈ d.m_template_info.type_name, Q c) ∧
      (∀ a ∈ d.m_template_info.template_types, normal_arg Q a) ∧
      toks.length ≤ d.m_template_info.template_types.length := by
  unfold parse_template at h
  cases h1 : substr r.m_type 0 (find r.m_type '<') with
  | error e => rw [h1] at h; injection h
  | ok base =>
    cases h2 : substr r.m_type ((find r.m_type '<' + 1) % SIZE_MOD) npos with
    | error e => rw [h1, h2] at h; injection h
    | ok tt =>
      rw [h1, h2] at h
      simp only [bind, Except.bind] at h
      cases h3 : tokenize_loop tt.length tt [] with
      | error e => rw [h3] at h; injection h
      | ok toks =>
        rw [h3] at h
        dsimp only at h
        cases h4 : process_tokens toks
            (.mk base r.m_template_info.template_types (decide (back r.m_type = '*'))) with
        | error e => rw [h4] at h; injection h
        | ok root =>
          rw [h4] at h
          injection h with h
          have htoks := (tokenize_loop_chars Q hstar _ tt [] toks
            (fun c hc => hQ c (substr_subset h2 c hc)) (by simp) h3).1
          obtain ⟨a1, a2, a3, a4⟩ := process_tokens_inv Q toks _ root htoks
            (by
              show ∀ t ∈ r.m_template_info.template_types, normal_arg Q t
              rw [hr]; simp) h4
          refine ⟨tt, toks, rfl, h3, ?_, ?_, ?_, ?_, ?_⟩
          · rw [← h]
          · rw [← h]; exact a2
          · rw [← h]
            show ∀ c ∈ root.type_name, Q c
            rw [a1]
            exact fun c hc => hQ c (substr_subset h1 c hc)
          · rw [← h]; exact a3
          · rw [← h]
            have : (template_info_t.mk base r.m_template_info.template_types
                (decide (back r.m_type = '*'))).template_types.length = 0 := by
              show r.m_template_info.template_types.length = 0
              rw [hr]; rfl
            show toks.length ≤ root.template_types.length
            omega

theorem parse_type_cases (r d : field_info_t) (t : Str) (h : parse_type r t = .ok d) :
    ((normalize_type r t).is_templated = true ∧ parse_template (normalize_type r t) = .ok d ∧
      d.is_templated = true) ∨
    ((normalize_type r t).is_templated = false ∧ d = normalize_type r t ∧
      d.is_templated = false) := by
  unfold parse_type at h
  dsimp only at h
  split at h
  · rename_i htem
    left
    refine ⟨htem, h, ?_⟩
    have hty : d.m_type = d.m_template_info.to_string := by
      unfold parse_template at h
      simp only [bind, Except.bind] at h
      repeat' split at h
      all_goals first
        | (injection h with h; rw [← h])
        | injection h
    unfold field_info_t.is_templated
    rw [hty, (to_string_templated _).1, (to_string_templated _).2]
    rfl
  · rename_i htem
    right
    injection h with h
    have hf : (normalize_type r t).is_templated = false := by
      simpa using htem
    exact ⟨hf, h.symm, h ▸ hf⟩

theorem parse_cases (env : Env) (t name : Str) (sizes : List Nat) (d : field_info_t)
    (h : parse env t name sizes = .ok d) :
    ∃ r : field_info_t, r.m_template_info = template_info_t.empty ∧ parse_type r t = .ok d := by
  unfold parse at h
  dsimp only at h
  cases h1 : parse_bitfield env { m_name := name, m_array_sizes := sizes } t with
  | error e => rw [h1] at h; injection h
  | ok r =>
    rw [h1] at h
    exact ⟨r, parse_bitfield_template env _ r t h1, h⟩

theorem parse_tree (env : Env) (t name : Str) (sizes : List Nat) (d : field_info_t)
    (h : parse env t name sizes = .ok d) :
    ∀ a ∈ d.m_template_info.template_types, normal_arg (fun _ => True) a := by
  obtain ⟨r, hr, hp⟩ := parse_cases env t name sizes d h
  rcases parse_type_cases r d t hp with ⟨-, h2, -⟩ | ⟨-, h2, -⟩
  · obtain ⟨_, _, _, _, _, _, _, h3, _⟩ := parse_template_spec (fun _ => True) trivial _ d
      (fun _ _ => trivial) (by rw [normalize_type_template, hr]; rfl) h2
    exact h3
  · rw [h2, normalize_type_template, hr]
    intro a ha
    exact absurd ha (List.not_mem_nil _)

/-! ### One level of nesting, serialisation, normalised leaves -/

/-- C14 (amended).  Nested instantiations are parsed one level deep, not recursively: in the
result of every successful string-path parse each argument of the root node is a leaf string
or a nested node all of whose arguments are leaf strings, never a further node. -/
theorem parse_one_level (env : Env) (t name : Str) (sizes : List Nat) (d : field_info_t)
    (h : parse env t name sizes = .ok d) : d.m_template_info.one_level = true := by
  have htree := parse_tree env t name sizes d h
  unfold template_info_t.one_level
  rw [List.all_eq_true]
  intro a ha
  rcases htree a ha with ⟨x, hx, -⟩ | ⟨n, ys, p, hx, -, -, hys⟩
  · subst hx; rfl
  · subst hx
    show ys.all template_type_t.is_leaf = true
    rw [List.all_eq_true]
    intro y hy
    obtain ⟨x, hx, -⟩ := hys y hy
    subst hx; rfl

/-- Witness of `parse_one_level`: "A<B<C<D>>>". -/
theorem parse_one_level_witness :
    ∃ d, parse sample_env "A<B<C<D>>>".toList "f".toList [] = .ok d ∧
      d.m_template_info.one_level = true :=
  ⟨_, rfl, parse_one_level sample_env "A<B<C<D>>>".toList "f".toList [] _ rfl⟩

/-- C16.  For every string-path parse that succeeds: if the result is templated, its canonical
type is the serialisation of its template node, that is `type_name`, "<", the serialisations
of the arguments joined by commas, ">", and "*" if `is_pointer`; if the result is not
templated, its template node is the empty default. -/
theorem parse_canonical_type (env : Env) (t name : Str) (sizes : List Nat) (d : field_info_t)
    (h : parse env t name sizes = .ok d) :
    (d.is_templated = true →
      d.m_type = d.m_template_info.to_string ∧
      d.m_type = d.m_template_info.type_name ++ "<".toList ++
        commas (d.m_template_info.template_types.map type_to_string) ++ ">".toList ++
        (if d.m_template_info.is_pointer then "*".toList else [])) ∧
    (d.is_templated = false → d.m_template_info = template_info_t.empty) := by
  obtain ⟨r, hr, hp⟩ := parse_cases env t name sizes d h
  rcases parse_type_cases r d t hp with ⟨-, h2, h3⟩ | ⟨-, h2, h3⟩
  · refine ⟨fun _ => ?_, fun hf => ?_⟩
    · obtain ⟨_, _, _, _, hty, _⟩ := parse_template_spec (fun _ => True) trivial _ d
        (fun _ _ => trivial) (by rw [normalize_type_template, hr]; rfl) h2
      refine ⟨hty, ?_⟩
      rw [hty]
      cases d.m_template_info with
      | mk n ts p =>
        rw [to_string_eq]
        simp [template_info_t.type_name, template_info_t.template_types,
          template_info_t.is_pointer]
    · rw [h3] at hf
      exact absurd hf (by decide)
  · refine ⟨fun ht => ?_, fun _ => ?_⟩
    · rw [h3] at ht
      exact absurd ht (by decide)
    · rw [h2, normalize_type_template, hr]

/-- Witness of `parse_canonical_type`: "A<B<x,int32>,z>". -/
theorem parse_canonical_type_witness :
    ∃ d, parse sample_env "A<B<x,int32>,z>".toList "f".toList [] = .ok d ∧
      (d.is_templated = true →
        d.m_type = d.m_template_info.to_string ∧
        d.m_type = d.m_template_info.type_name ++ "<".toList ++
          commas (d.m_template_info.template_types.map type_to_string) ++ ">".toList ++
          (if d.m_template_info.is_pointer then "*".toList else [])) ∧
      (d.is_templated = false → d.m_template_info = template_info_t.empty) :=
  ⟨_, rfl, parse_canonical_type sample_env "A<B<x,int32>,z>".toList "f".toList [] _ rfl⟩

theorem rules_not_alias :
    ∀ r1 ∈ kTypeNameToCpp, ∀ r2 ∈ kTypeNameToCpp, r1.2 ≠ r2.1 := by decide

theorem apply_rules_not_alias (x : Str) : ∀ rule ∈ kTypeNameToCpp, apply_rules x ≠ rule.1 := by
  intro rule hrule
  unfold apply_rules
  split
  · rename_i r1 heq
    exact rules_not_alias r1 (List.mem_of_find?_eq_some heq) rule hrule
  · rename_i heq
    have := List.find?_eq_none.1 heq rule hrule
    simpa using this

theorem mem_types_leaves {s : Str} {ts : List template_type_t} (h : s ∈ types_leaves ts) :
    ∃ t ∈ ts, s ∈ type_leaves t := by
  induction ts with
  | nil => simp [types_leaves] at h
  | cons t ts ih =>
    rw [types_leaves] at h
    rcases List.mem_append.1 h with h | h
    · exact ⟨t, List.mem_cons_self _ _, h⟩
    · obtain ⟨t2, ht2, hs⟩ := ih h
      exact ⟨t2, List.mem_cons_of_mem _ ht2, hs⟩

theorem normal_leaf_leaves (Q : Char → Prop) {t : template_type_t} (h : normal_leaf Q t)
    {s : Str} (hs : s ∈ type_leaves t) : ∃ x, s = apply_rules x ∧ ∀ c ∈ x, Q c := by
  obtain ⟨x, hx, hQ⟩ := h
  subst hx
  rw [type_leaves, List.mem_singleton] at hs
  exact ⟨x, hs, hQ⟩

theorem normal_arg_leaves (Q : Char → Prop) {t : template_type_t} (h : normal_arg Q t)
    {s : Str} (hs : s ∈ type_leaves t) : ∃ x, s = apply_rules x ∧ ∀ c ∈ x, Q c := by
  rcases h with h | ⟨n, ys, p, hx, -, -, hys⟩
  · exact normal_leaf_leaves Q h hs
  · subst hx
    rw [type_leaves, template_info_t.leaves] at hs
    obtain ⟨y, hy, hsy⟩ := mem_types_leaves hs
    exact normal_leaf_leaves Q (hys y hy) hsy

theorem tree_leaves (Q : Char → Prop) (root : template_info_t)
    (h : ∀ a ∈ root.template_types, normal_arg Q a) {s : Str} (hs : s ∈ root.leaves) :
    ∃ x, s = apply_rules x ∧ ∀ c ∈ x, Q c := by
  cases root with
  | mk n ts p =>
    rw [template_info_t.leaves] at hs
    obtain ⟨t, ht, hst⟩ := mem_types_leaves hs
    exact normal_arg_leaves Q (h t ht) hst

/-- C17.  For every type string on which the string-path parse succeeds, no leaf string stored
anywhere in the resulting template tree is an alias name of `kTypeNameToCpp`. -/
theorem parse_leaves_normalized (env : Env) (t name : Str) (sizes : List Nat)
    (d : field_info_t) (h : parse env t name sizes = .ok d) :
    ∀ s ∈ d.m_template_info.leaves, ∀ rule ∈ kTypeNameToCpp, s ≠ rule.1 := by
  intro s hs rule hrule
  obtain ⟨x, hx, -⟩ := tree_leaves _ _ (parse_tree env t name sizes d h) hs
  rw [hx]
  exact apply_rules_not_alias x rule hrule

/-- Witness of `parse_leaves_normalized`: "A<B<int32,x>,float32,uint8>". -/
theorem parse_leaves_normalized_witness :
    ∃ d, parse sample_env "A<B<int32,x>,float32,uint8>".toList "f".toList [] = .ok d ∧
      d.m_template_info.leaves =
        ["int32_t".toList, "x".toList, "float".toList, "uint8_t".toList] ∧
      ∀ s ∈ d.m_template_info.leaves, ∀ rule ∈ kTypeNameToCpp, s ≠ rule.1 :=
  ⟨_, rfl, rfl,
    parse_leaves_normalized sample_env "A<B<int32,x>,float32,uint8>".toList "f".toList [] _ rfl⟩

/-! ### The number of arguments -/

theorem mem_types_nodes {n : template_info_t} {ts : List template_type_t}
    (h : n ∈ types_nodes ts) : ∃ t ∈ ts, n ∈ type_nodes t := by
  induction ts with
  | nil => simp [types_nodes] at h
  | cons t ts ih =>
    rw [types_nodes] at h
    rcases List.mem_append.1 h with h | h
    · exact ⟨t, List.mem_cons_self _ _, h⟩
    · obtain ⟨t2, ht2, hs⟩ := ih h
      exact ⟨t2, List.mem_cons_of_mem _ ht2, hs⟩

theorem normal_leaf_nodes (Q : Char → Prop) {t : template_type_t} (h : normal_leaf Q t) :
    type_nodes t = [] := by
  obtain ⟨x, hx, -⟩ := h
  subst hx
  rw [type_nodes]

theorem tree_nodes (Q : Char → Prop) (root : template_info_t)
    (h : ∀ a ∈ root.template_types, normal_arg Q a) {n : template_info_t}
    (hn : n ∈ root.nodes) : n.template_types ≠ [] := by
  cases root with
  | mk nm ts p =>
    rw [template_info_t.nodes] at hn
    obtain ⟨t, ht, hnt⟩ := mem_types_nodes hn
    rcases h t ht with hl | ⟨n2, ys, p2, hx, hne, -, hys⟩
    · rw [normal_leaf_nodes Q hl] at hnt
      exact absurd hnt (List.not_mem_nil _)
    · subst hx
      rw [type_nodes, template_info_t.nodes] at hnt
      rcases List.mem_cons.1 hnt with hnt | hnt
      · subst hnt; exact hne
      · obtain ⟨y, hy, hny⟩ := mem_types_nodes hnt
        rw [normal_leaf_nodes Q (hys y hy)] at hny
        exact absurd hny (List.not_mem_nil _)

theorem parse_type_bracketed (r d : field_info_t) (t nm rest : Str)
    (hr : r.m_type = [] ∧ r.m_template_info = template_info_t.empty)
    (hlen : t.length < npos) (hnm : '<' ∉ nm) (hgt : '>' ∈ rest)
    (hform : remove_spaces t = nm ++ '<' :: rest)
    (h : parse_type r t = .ok d) :
    ∃ toks : List Str, tokenize_loop rest.length rest [] = .ok toks ∧
      toks.length ≤ d.m_template_info.template_types.length ∧
      (toks = [] → d.m_template_info.template_types = []) := by
  have hlt : '<' ∈ remove_spaces t := by rw [hform]; simp
  have hty : (normalize_type r t).m_type = nm ++ '<' :: rest := by
    rw [normalize_type_type, hr.1]
    simp only [List.isEmpty_nil, if_true]
    rw [apply_rules_of_lt hlt, hform]
  have htem : (normalize_type r t).is_templated = true := by
    unfold field_info_t.is_templated
    rw [hty, Bool.and_eq_true]
    exact ⟨contains_eq_true.2 (by simp), contains_eq_true.2 (by simp [hgt])⟩
  rcases parse_type_cases r d t h with ⟨-, h2, -⟩ | ⟨h1, -, -⟩
  · have hlen2 : (nm ++ '<' :: rest).length < npos := by
      rw [← hform]
      exact Nat.lt_of_le_of_lt (remove_spaces_length_le t) hlen
    have hsub : substr (normalize_type r t).m_type
        ((find (normalize_type r t).m_type '<' + 1) % SIZE_MOD) npos = .ok rest := by
      rw [hty, find_append_cons nm rest '<' hnm,
        size_mod_of_lt hlen2 (by simp : nm.length < (nm ++ '<' :: rest).length) (by decide),
        substr_ok _ _ npos (by simp), take_npos _ hlen2, List.drop_append]
      rfl
    unfold parse_template at h2
    rw [hsub, substr_ok _ 0 _ (Nat.zero_le _)] at h2
    simp only [bind, Except.bind] at h2
    cases h3 : tokenize_loop rest.length rest [] with
    | error e => rw [h3] at h2; injection h2
    | ok toks =>
      rw [h3] at h2
      dsimp only at h2
      have hrt : (normalize_type r t).m_template_info.template_types = [] := by
        rw [normalize_type_template, hr.2]; rfl
      rw [hrt] at h2
      cases h4 : process_tokens toks
          (.mk (List.take (find (normalize_type r t).m_type '<')
            (List.drop 0 (normalize_type r t).m_type)) []
            (decide (back (normalize_type r t).m_type = '*'))) with
      | error e => rw [h4] at h2; injection h2
      | ok root =>
        rw [h4] at h2
        injection h2 with h2
        obtain ⟨-, -, -, a4⟩ := process_tokens_inv (fun _ => True) toks _ root
          (fun _ _ _ _ => trivial) (by intro a ha; exact absurd ha (List.not_mem_nil _)) h4
        refine ⟨toks, rfl, ?_, ?_⟩
        · rw [← h2]
          show toks.length ≤ root.template_types.length
          have : (template_info_t.mk (List.take (find (normalize_type r t).m_type '<')
            (List.drop 0 (normalize_type r t).m_type)) []
            (decide (back (normalize_type r t).m_type = '*'))).template_types.length = 0 := rfl
          omega
        · intro h0
          subst h0
          rw [← h2]
          unfold process_tokens at h4
          injection h4 with h4
          rw [← h4]
          rfl
  · rw [htem] at h1
    exact absurd h1 (by decide)

theorem parse_type_empty_brackets (r : field_info_t) (t nm : Str)
    (hr : r.m_type = [] ∧ r.m_template_info = template_info_t.empty)
    (hlen : t.length < npos) (hnm : '<' ∉ nm)
    (hform : remove_spaces t = nm ++ ['<', '>']) :
    ∃ d, parse_type r t = .ok d ∧ d.m_template_info = .mk nm [] false := by
  have hlt : '<' ∈ remove_spaces t := by rw [hform]; simp
  have hty : (normalize_type r t).m_type = nm ++ '<' :: ['>'] := by
    rw [normalize_type_type, hr.1]
    simp only [List.isEmpty_nil, if_true]
    rw [apply_rules_of_lt hlt, hform]
  have htem : (normalize_type r t).is_templated = true := by
    unfold field_info_t.is_templated
    rw [hty, Bool.and_eq_true]
    exact ⟨contains_eq_true.2 (by simp), contains_eq_true.2 (by simp)⟩
  have hlen2 : (nm ++ '<' :: ['>']).length < npos := by
    have h1 : (nm ++ '<' :: ['>']).length = (remove_spaces t).length := by rw [hform]
    have h2 := remove_spaces_length_le t
    omega
  have hsub : substr (normalize_type r t).m_type
      ((find (normalize_type r t).m_type '<' + 1) % SIZE_MOD) npos = .ok ['>'] := by
    rw [hty, find_append_cons nm ['>'] '<' hnm,
      size_mod_of_lt hlen2 (by simp : nm.length < (nm ++ '<' :: ['>']).length) (by decide),
      substr_ok _ _ npos (by simp), take_npos _ hlen2, List.drop_append]
    rfl
  have hbase : substr (normalize_type r t).m_type 0 (find (normalize_type r t).m_type '<')
      = .ok nm := by
    rw [hty, find_append_cons nm ['>'] '<' hnm, substr_ok _ 0 _ (Nat.zero_le _)]
    simp
  have hback : decide (back (normalize_type r t).m_type = '*') = false := by
    rw [hty, back_append_cons]
    rfl
  have hrt : (normalize_type r t).m_template_info.template_types = [] := by
    rw [normalize_type_template, hr.2]; rfl
  unfold parse_type
  dsimp only
  rw [if_pos htem]
  unfold parse_template
  rw [hsub, hbase, hback, hrt]
  exact ⟨_, rfl, rfl⟩

/-- C18 (amended).  For every type string that does not begin with "bitfield:" and that, after
whitespace removal, has the form name + "<" + body + ">" (optionally followed by "*") where
name contains no '<' and body is non-empty: if the string-path parse succeeds, the root
template node has at least one argument and every nested node in the tree has at least one
argument; and for an empty bracket pair ("name<>") the parse succeeds and the root has no
arguments. -/
theorem parse_argument_counts (env : Env) (t name nm : Str) (sizes : List Nat)
    (hnb : ¬ kBitfieldTypePrefix <+: t) (hlen : t.length < npos) (hnm : '<' ∉ nm) :
    (∀ (body ptr : Str) (d : field_info_t), body ≠ [] → (ptr = [] ∨ ptr = ['*']) →
      remove_spaces t = nm ++ '<' :: (body ++ '>' :: ptr) →
      parse env t name sizes = .ok d →
      d.m_template_info.template_types ≠ [] ∧
        ∀ n ∈ d.m_template_info.nodes, n.template_types ≠ []) ∧
    (remove_spaces t = nm ++ ['<', '>'] →
      ∃ d, parse env t name sizes = .ok d ∧ d.m_template_info.template_types = []) := by
  constructor
  · intro body ptr d hbody _ hform h
    refine ⟨?_, fun n hn => tree_nodes _ _ (parse_tree env t name sizes d h) hn⟩
    rw [parse_of_not_bitfield env t name sizes hnb] at h
    obtain ⟨toks, h1, h2, -⟩ := parse_type_bracketed _ d t nm (body ++ '>' :: ptr)
      ⟨rfl, rfl⟩ hlen hnm (by simp) hform h
    have hl : 1 < (body ++ '>' :: ptr).length := by
      have := List.length_pos.2 hbody
      simp only [List.length_append, List.length_cons]; omega
    obtain ⟨f, hf⟩ : ∃ f, (body ++ '>' :: ptr).length = f + 1 :=
      ⟨(body ++ '>' :: ptr).length - 1, by omega⟩
    rw [hf] at h1
    have h3 := tokenize_loop_first f _ [] toks hl (Or.inr (Or.inr (by simp))) h1
    intro h0
    rw [h0] at h2
    simp only [List.length_nil] at h2 h3
    omega
  · intro hform
    rw [parse_of_not_bitfield env t name sizes hnb]
    obtain ⟨d, h1, h2⟩ := parse_type_empty_brackets
      { m_name := name, m_array_sizes := sizes } t nm ⟨rfl, rfl⟩ hlen hnm hform
    exact ⟨d, h1, by rw [h2]; rfl⟩

/-- Witness of `parse_argument_counts`: the strings "A<B<C>,D>*" and "A<>". -/
theorem parse_argument_counts_witness :
    (∃ d, parse sample_env "A<B<C>,D>*".toList "f".toList [] = .ok d ∧
      d.m_template_info.template_types ≠ [] ∧
      ∀ n ∈ d.m_template_info.nodes, n.template_types ≠ []) ∧
    (∃ d, parse sample_env "A<>".toList "f".toList [] = .ok d ∧
      d.m_template_info.template_types = []) :=
  ⟨⟨_, rfl,
      (parse_argument_counts sample_env "A<B<C>,D>*".toList "f".toList "A".toList []
        (by decide) (by decide) (by decide)).1 "B<C>,D".toList ['*'] _ (by decide)
        (Or.inr rfl) (by decide) rfl⟩,
    (parse_argument_counts sample_env "A<>".toList "f".toList "A".toList []
      (by decide) (by decide) (by decide)).2 (by decide)⟩

/-- C18, counterexample: "bitfield:5<x>" has the form name + "<" + body + ">" with the name
"bitfield:5" and the body "x", its parse succeeds whenever the guessed type name is non-empty
and has no '<', and the root template node of the result has no arguments: the bitfield
detector comes first. -/
theorem parse_bitfield_brackets :
    remove_spaces "bitfield:5<x>".toList = "bitfield:5".toList ++ '<' :: ("x".toList ++ ['>']) ∧
    '<' ∉ "bitfield:5".toList ∧
    (∃ d, parse sample_env "bitfield:5<x>".toList "f".toList [] = .ok d ∧
      d.m_bitfield_size = 5 ∧ d.m_template_info.template_types = []) ∧
    (∀ env : Env, env.guess_bitfield_type 5 ≠ [] → '<' ∉ env.guess_bitfield_type 5 →
      ∃ d, parse env "bitfield:5<x>".toList "f".toList [] = .ok d ∧
        d.m_template_info.template_types = []) := by
  refine ⟨by decide, by decide, ⟨_, rfl, rfl, rfl⟩, ?_⟩
  intro env hne hg
  have hat : atoi env "5<x>".toList = 5 := by
    rw [atoi_in_range] <;> decide
  have hw : wrapped_atoi env "5<x>".toList = .ok 5 := by
    unfold wrapped_atoi
    rw [hat]
    rfl
  have hp := parse_bitfield_string env "5<x>".toList "f".toList []
  rw [hw] at hp
  have hp2 : parse env "bitfield:5<x>".toList "f".toList [] = _ := hp
  rw [hp2]
  dsimp only
  rw [parse_type_not_templated]
  · refine ⟨_, rfl, ?_⟩
    rw [normalize_type_template]
    rfl
  · dsimp only
    split
    · rename_i he
      exfalso
      revert he hne
      cases env.guess_bitfield_type 5 <;> simp
    · exact hg

/-! ### Whitespace -/

theorem remove_spaces_chars (s : Str) : ∀ c ∈ remove_spaces s, isspace c = false := by
  intro c hc
  unfold remove_spaces at hc
  have := (List.mem_filter.1 hc).2
  simpa using this

theorem remove_spaces_idem (s : Str) : remove_spaces (remove_spaces s) = remove_spaces s :=
  remove_spaces_eq_self (remove_spaces_chars s)

theorem remove_spaces_append (a b : Str) :
    remove_spaces (a ++ b) = remove_spaces a ++ remove_spaces b := by
  unfold remove_spaces
  exact List.filter_append _ _

theorem prefix_remove_spaces {s : Str} (h : kBitfieldTypePrefix <+: s) :
    kBitfieldTypePrefix <+: remove_spaces s := by
  obtain ⟨r, hr⟩ := h
  subst hr
  rw [remove_spaces_append, remove_spaces_eq_self (by decide)]
  exact List.prefix_append _ _

theorem normalize_type_remove_spaces (r : field_info_t) (s : Str) :
    normalize_type r (remove_spaces s) = normalize_type r s := by
  unfold normalize_type
  by_cases h : r.m_type.isEmpty = true
  · simp only [h, if_true, remove_spaces_idem]
  · simp only [h]
    rfl

theorem parse_type_remove_spaces (r : field_info_t) (s : Str) :
    parse_type r (remove_spaces s) = parse_type r s := by
  unfold parse_type
  rw [normalize_type_remove_spaces]

theorem rules_no_space : ∀ rule ∈ kTypeNameToCpp, ∀ c ∈ rule.2, isspace c = false := by decide

theorem rules_apply : ∀ rule ∈ kTypeNameToCpp, apply_rules rule.1 = rule.2 := by decide

theorem rules_not_bitfield :
    ∀ rule ∈ kTypeNameToCpp, '<' ∉ rule.1 ∧ ¬ kBitfieldTypePrefix <+: rule.1 := by decide

theorem apply_rules_no_space {x : Str} (h : ∀ c ∈ x, isspace c = false) :
    ∀ c ∈ apply_rules x, isspace c = false := by
  unfold apply_rules
  split
  · rename_i rule heq
    exact rules_no_space rule (List.mem_of_find?_eq_some heq)
  · exact h

theorem normal_leaf_no_space {t : template_type_t}
    (h : normal_leaf (fun c => isspace c = false) t) :
    ∀ c ∈ type_to_string t, isspace c = false := by
  obtain ⟨x, hx, hQ⟩ := h
  subst hx
  rw [type_to_string]
  exact apply_rules_no_space hQ

theorem node_no_space (n : Str) (ts : List template_type_t) (p : Bool)
    (hn : ∀ c ∈ n, isspace c = false)
    (hts : ∀ t ∈ ts, ∀ c ∈ type_to_string t, isspace c = false) :
    ∀ c ∈ (template_info_t.mk n ts p).to_string, isspace c = false := by
  intro c hc
  rw [to_string_eq] at hc
  rcases List.mem_append.1 hc with h | h
  · exact hn c h
  · rcases List.mem_cons.1 h with h | h
    · subst h; rfl
    · rcases List.mem_append.1 h with h | h
      · rcases mem_commas h with h | ⟨x, hx, hcx⟩
        · subst h; rfl
        · obtain ⟨t, ht, rfl⟩ := List.mem_map.1 hx
          exact hts t ht c hcx
      · rcases List.mem_cons.1 h with h | h
        · subst h; rfl
        · cases p
          · simp at h
          · simp at h
            subst h; rfl

theorem normal_arg_no_space {t : template_type_t}
    (h : normal_arg (fun c => isspace c = false) t) :
    ∀ c ∈ type_to_string t, isspace c = false := by
  rcases h with h | ⟨n, ys, p, hx, -, hn, hys⟩
  · exact normal_leaf_no_space h
  · subst hx
    rw [type_to_string]
    exact node_no_space n ys p hn fun y hy => normal_leaf_no_space (hys y hy)

theorem parse_type_no_space (r d : field_info_t) (t : Str)
    (hr : r.m_template_info = template_info_t.empty) (h : parse_type r t = .ok d) :
    ∀ c ∈ d.m_type, isspace c = false := by
  have hQ : ∀ c ∈ (normalize_type r t).m_type, isspace c = false := by
    rw [normalize_type_type]
    exact apply_rules_no_space (remove_spaces_chars _)
  rcases parse_type_cases r d t h with ⟨-, hp, -⟩ | ⟨-, hd, -⟩
  · obtain ⟨tt, toks, -, -, hty, -, hn, hargs, -⟩ :=
      parse_template_spec (fun c => isspace c = false) rfl _ d hQ
        (by rw [normalize_type_template, hr]; rfl) hp
    rw [hty]
    cases hroot : d.m_template_info with
    | mk n ts p =>
      rw [hroot] at hn hargs
      exact node_no_space n ts p hn fun a ha => normal_arg_no_space (hargs a ha)
  · rw [hd]
    exact hQ

/-- C19.  Whitespace insensitivity: for every type string s whose whitespace-stripped form
does not begin with "bitfield:", the string-path parse of s and the parse of the stripped form
give the same result (the same error, or the same descriptor); on success the canonical type
contains no whitespace character; and a string that equals an alias name after whitespace
removal parses to that alias's canonical name. -/
theorem parse_whitespace_insensitive (env : Env) (s name : Str) (sizes : List Nat)
    (hnb : ¬ kBitfieldTypePrefix <+: remove_spaces s) :
    parse env s name sizes = parse env (remove_spaces s) name sizes ∧
    (∀ d, parse env s name sizes = .ok d → ∀ c ∈ d.m_type, isspace c = false) ∧
    (∀ rule ∈ kTypeNameToCpp, remove_spaces s = rule.1 →
      ∃ d, parse env s name sizes = .ok d ∧ d.m_type = rule.2 ∧
        d.m_template_info = template_info_t.empty) := by
  have hs : ¬ kBitfieldTypePrefix <+: s := fun h => hnb (prefix_remove_spaces h)
  rw [parse_of_not_bitfield env s name sizes hs,
    parse_of_not_bitfield env (remove_spaces s) name sizes hnb, parse_type_remove_spaces]
  refine ⟨rfl, fun d h => parse_type_no_space _ d s rfl h, ?_⟩
  intro rule hrule heq
  have hlt : '<' ∉ s := by
    intro hm
    apply (rules_not_bitfield rule hrule).1
    rw [← heq]
    unfold remove_spaces
    exact List.mem_filter.2 ⟨hm, by decide⟩
  rw [parse_type_not_templated { m_name := name, m_array_sizes := sizes } s hlt]
  refine ⟨_, rfl, ?_, ?_⟩
  · rw [normalize_type_type]
    simp only [List.isEmpty_nil, if_true]
    rw [heq]
    exact rules_apply rule hrule
  · rw [normalize_type_template]

/-- Witness of `parse_whitespace_insensitive`: the string " int32 ". -/
theorem parse_whitespace_insensitive_witness :
    parse sample_env " int32 ".toList "f".toList [] = parse sample_env "int32".toList "f".toList [] ∧
    (∃ d, parse sample_env " int32 ".toList "f".toList [] = .ok d ∧ d.m_type = "int32_t".toList) :=
  have h := parse_whitespace_insensitive sample_env " int32 ".toList "f".toList [] (by decide)
  ⟨h.1, (h.2.2 ("int32".toList, "int32_t".toList) (by decide) (by decide)).imp
    fun _ hd => ⟨hd.1, hd.2.1⟩⟩

/-! ### Termination of the tokenizer -/

theorem tokenize_step_unclosed (t : Str) (hlen : t.length < npos) (hlt : '<' ∈ t)
    (hgt : '>' ∉ t) :
    tokenize_step t
      = .ok (some (if char_at t 0 = '*' then '*' :: t else t, t.drop 1)) := by
  have hpos : 1 ≤ t.length := List.length_pos.2 (List.ne_nil_of_mem hlt)
  have h1 : (npos + 1) % SIZE_MOD = 0 := by decide
  have h2 : (npos + 2) % SIZE_MOD = 1 := by decide
  unfold tokenize_step
  rw [if_pos (contains_eq_true.2 hlt)]
  dsimp only
  rw [find_not_mem hgt, h1, h2, substr_ok t 0 npos (Nat.zero_le _), substr_ok t 1 npos hpos,
    take_npos t hlen 0, take_npos t hlen 1]
  rfl

theorem tokenize_loop_count (fuel : Nat) : ∀ (t : Str) (acc toks : List Str),
    t.length < npos → tokenize_loop fuel t acc = .ok toks →
    toks.length ≤ acc.length + (t.length - 1) := by
  induction fuel with
  | zero =>
    intro t acc toks _ h
    injection h with h
    subst h
    omega
  | succ fuel ih =>
    intro t acc toks hlen h
    unfold tokenize_loop at h
    split at h
    · rename_i hl
      split at h
      · injection h
      · injection h with h
        subst h
        omega
      · rename_i tok rest heq
        have hs := (tokenize_step_suffix t tok rest hlen heq).2
        have := ih rest _ toks (by omega) h
        simp only [List.length_append, List.length_singleton] at this
        omega
    · injection h with h
      subst h
      omega

theorem substr_length_le {s t : Str} {k n : Nat} (h : substr s k n = .ok t) :
    t.length ≤ s.length := by
  unfold substr at h
  split at h
  · injection h
  · injection h with h
    subst h
    simp only [List.length_take, List.length_drop]
    omega

/-- C20.  The tokenizer loop terminates on every input: for a stripped type string `s` and the
remaining text `t` cut from it, every iteration on a text `u` no longer than `s` that neither
breaks nor raises replaces `u` by a strictly shorter suffix of `u`; when `u` contains '<' but
no '>' (find returns npos) the iteration succeeds and drops exactly the first character; the
loop run with any number of iterations at least the length of `t` gives the result of the run
with exactly that many; and when the loop returns, the number of tokens is at most the length
of `s`. -/
theorem tokenize_terminates (s t : Str) (k : Nat) (hlen : s.length < npos)
    (ht : substr s k npos = .ok t) :
    (∀ u tok rest, u.length ≤ s.length → tokenize_step u = .ok (some (tok, rest)) →
      rest <:+ u ∧ rest.length < u.length) ∧
    (∀ u, u.length ≤ s.length → '<' ∈ u → '>' ∉ u →
      ∃ tok, tokenize_step u = .ok (some (tok, u.drop 1)) ∧ (u.drop 1).length < u.length) ∧
    (∀ fuel, t.length ≤ fuel → tokenize_loop fuel t [] = tokenize_loop t.length t []) ∧
    (∀ toks, tokenize_loop t.length t [] = .ok toks → toks.length ≤ s.length) := by
  have htl := substr_length_le ht
  refine ⟨?_, ?_, ?_, ?_⟩
  · intro u tok rest hu h
    exact tokenize_step_suffix u tok rest (by omega) h
  · intro u hu hlt hgt
    refine ⟨_, tokenize_step_unclosed u (by omega) hlt hgt, ?_⟩
    have := List.length_pos.2 (List.ne_nil_of_mem hlt)
    simp only [List.length_drop]
    omega
  · intro fuel hf
    exact tokenize_loop_fuel fuel t.length t [] hf (Nat.le_refl _) (by omega)
  · intro toks h
    have := tokenize_loop_count t.length t [] toks (by omega) h
    simp only [List.length_nil] at this
    omega

/-- Witness of `tokenize_terminates`: the stripped type string "A<B<x,y" and its remaining
text "B<x,y", which contains '<' but no '>'. -/
theorem tokenize_terminates_witness :
    substr "A<B<x,y".toList 2 npos = .ok "B<x,y".toList ∧
    tokenize_loop 5 "B<x,y".toList []
      = .ok ["B<x,y".toList, "<x,y".toList, "x".toList] ∧
    (∀ fuel, 5 ≤ fuel → tokenize_loop fuel "B<x,y".toList []
      = tokenize_loop 5 "B<x,y".toList []) :=
  ⟨rfl, rfl,
    (tokenize_terminates "A<B<x,y".toList "B<x,y".toList 2 (by decide) rfl).2.2.1⟩

end FieldParser
